import Mathlib

/-!
Verification of the DataAgent core against its specification.

Text is modelled as `List Char` (one entry per Python character).  Python
floats are idealised as exact rationals `ℚ`.  Each definition is a direct
translation of the corresponding function in `src/dash/...`; the file then
proves or refutes the frozen claims C1..C10.
-/

namespace DataAgent

/-- Shorthand: the character list of a string literal. -/
def str (s : String) : List Char := s.data

abbrev Str := List Char

deriving instance DecidableEq for Except

/-- Python whitespace (`str.strip`, `str.split`, regex `\s`), ASCII range. -/
def isSpaceC (c : Char) : Bool :=
  c == ' ' || c == '\t' || c == '\n' || c == '\x0d' || c == '\x0b' || c == '\x0c'

/-- ASCII decimal digit (`\d`). -/
def isDigitC (c : Char) : Bool := 48 ≤ c.toNat && c.toNat ≤ 57

/-- ASCII uppercase letter. -/
def isUpperC (c : Char) : Bool := 65 ≤ c.toNat && c.toNat ≤ 90

/-- ASCII lowercase letter. -/
def isLowerC (c : Char) : Bool := 97 ≤ c.toNat && c.toNat ≤ 122

/-- ASCII letter. -/
def isAlphaC (c : Char) : Bool := isUpperC c || isLowerC c

/-- Regex word character `\w` (ASCII): letter, digit or underscore. -/
def isWordC (c : Char) : Bool := isAlphaC c || isDigitC c || c == '_'

/-- ASCII `str.lower` on a single character. -/
def lowerC (c : Char) : Char :=
  if isUpperC c then Char.ofNat (c.toNat + 32) else c

/-- ASCII `str.lower`. -/
def lowerStr (l : Str) : Str := l.map lowerC

/-- `str.lstrip()` (whitespace). -/
def wsStripL (l : Str) : Str := l.dropWhile isSpaceC

/-- `str.rstrip()` (whitespace). -/
def wsStripR (l : Str) : Str := (l.reverse.dropWhile isSpaceC).reverse

/-- `str.strip()` (whitespace). -/
def wsStrip (l : Str) : Str := wsStripR (wsStripL l)

/-- `str.rstrip(";")`. -/
def rstripSemi (l : Str) : Str := (l.reverse.dropWhile (· == ';')).reverse

/-- Decimal digits of `n`, but fueled so that the kernel can evaluate it. -/
def natDigitsAux : Nat → Nat → List Char
  | 0, _ => []
  | fuel + 1, n =>
    if n < 10 then [Char.ofNat (48 + n)]
    else natDigitsAux fuel (n / 10) ++ [Char.ofNat (48 + n % 10)]

/-- Decimal representation of `n`, as produced by Python `str(n)` for `n ≥ 0`. -/
def natDigits (n : Nat) : List Char := natDigitsAux (n + 1) n

/-- Numeric value of a digit character. -/
def digitVal (c : Char) : Nat := c.toNat - 48

/-- Numeric value of a digit string (Python `int(...)` on a digit run). -/
def evalDigits (l : List Char) : Nat := l.foldl (fun a c => 10 * a + digitVal c) 0

theorem evalDigits_append_digit (l : List Char) (c : Char) :
    evalDigits (l ++ [c]) = 10 * evalDigits l + digitVal c := by
  simp [evalDigits, List.foldl_append]

theorem digitVal_char_ofNat (d : Nat) (h : d < 10) :
    digitVal (Char.ofNat (48 + d)) = d := by
  interval_cases d <;> rfl

theorem evalDigits_natDigitsAux (fuel n : Nat) (h : n < 10 ^ fuel) :
    evalDigits (natDigitsAux fuel n) = n := by
  induction fuel generalizing n with
  | zero =>
    simp only [pow_zero, Nat.lt_one_iff] at h
    subst h; rfl
  | succ f ih =>
    by_cases hn : n < 10
    · simp [natDigitsAux, hn, evalDigits, digitVal_char_ofNat n hn]
    · have hdiv : n / 10 < 10 ^ f := by
        rw [Nat.div_lt_iff_lt_mul (by norm_num)]
        calc n < 10 ^ (f + 1) := h
          _ = 10 ^ f * 10 := by ring
      simp only [natDigitsAux, hn, if_false]
      rw [evalDigits_append_digit, ih _ hdiv,
        digitVal_char_ofNat _ (Nat.mod_lt _ (by norm_num))]
      omega

theorem evalDigits_natDigits (n : Nat) : evalDigits (natDigits n) = n :=
  evalDigits_natDigitsAux (n + 1) n
    (lt_of_lt_of_le (Nat.lt_two_pow n)
      (by
        calc (2 : Nat) ^ n ≤ 10 ^ n := Nat.pow_le_pow_left (by norm_num) n
          _ ≤ 10 ^ (n + 1) := Nat.pow_le_pow_right (by norm_num) (Nat.le_succ n)))

theorem natDigits_injective : Function.Injective natDigits := by
  intro m n h
  have := evalDigits_natDigits m
  rw [h, evalDigits_natDigits] at this
  omega

theorem natDigits_ne_nil (n : Nat) : natDigits n ≠ [] := by
  unfold natDigits natDigitsAux
  by_cases h : n < 10 <;> simp [h]

theorem isDigitC_char_ofNat (d : Nat) (h : d < 10) :
    isDigitC (Char.ofNat (48 + d)) = true := by
  interval_cases d <;> rfl

theorem natDigitsAux_digits (fuel n : Nat) :
    ∀ c ∈ natDigitsAux fuel n, isDigitC c = true := by
  induction fuel generalizing n with
  | zero => intro c hc; simp [natDigitsAux] at hc
  | succ f ih =>
    intro c hc
    by_cases hn : n < 10
    · simp only [natDigitsAux, hn, if_true, List.mem_singleton] at hc
      subst hc
      exact isDigitC_char_ofNat n hn
    · simp only [natDigitsAux, hn, if_false, List.mem_append, List.mem_singleton] at hc
      rcases hc with hc | hc
      · exact ih _ c hc
      · subst hc
        exact isDigitC_char_ofNat _ (Nat.mod_lt _ (by norm_num))

theorem natDigits_digits (n : Nat) : ∀ c ∈ natDigits n, isDigitC c = true :=
  natDigitsAux_digits (n + 1) n

/-! ### SQL guardrail (`src/dash/native/guardrails.py`) -/

/-- Skip to the next newline, keeping it (regex `--.*?$` with MULTILINE|DOTALL
removes up to, but not including, the next `\n`). -/
def dropLine (l : List Char) : List Char := l.dropWhile (fun c => c ≠ '\n')

/-- Find the terminator `*/` of a block comment; `some` returns the suffix
after it, `none` means the comment is unclosed (the regex then does not match). -/
def findClose : List Char → Option (List Char)
  | [] => none
  | [_] => none
  | a :: b :: rest => if a = '*' ∧ b = '/' then some rest else findClose (b :: rest)

theorem dropLine_length_le (l : List Char) : (dropLine l).length ≤ l.length :=
  (List.dropWhile_sublist _).length_le

theorem findClose_length_lt (l : List Char) :
    ∀ r, findClose l = some r → r.length < l.length := by
  induction l with
  | nil => intro r h; simp [findClose] at h
  | cons a rest ih =>
    intro r h
    cases rest with
    | nil => simp [findClose] at h
    | cons b rest2 =>
      rw [findClose] at h
      split at h
      · simp only [Option.some.injEq] at h
        subst h; simp; omega
      · exact (ih r h).trans (Nat.lt_succ_self _)

/-- One fueled pass of `_strip_comments` (`re.sub` of `--.*?$|/\*.*?\*/`).
The fuel only serves to make the recursion structural; `stripComments`
supplies enough for the scan to finish. -/
def stripCommentsF : Nat → List Char → List Char
  | 0, l => l
  | fuel + 1, l =>
    match l with
    | [] => []
    | '-' :: '-' :: rest => stripCommentsF fuel (dropLine rest)
    | '/' :: '*' :: rest =>
      match findClose rest with
      | some r => stripCommentsF fuel r
      | none => '/' :: stripCommentsF fuel ('*' :: rest)
    | c :: rest => c :: stripCommentsF fuel rest

/-- `_strip_comments` from `guardrails.py`. -/
def stripComments (l : List Char) : List Char := stripCommentsF l.length l

/-- `cleaned = _strip_comments(sql).strip().rstrip(";")`. -/
def cleanse (s : Str) : Str := rstripSemi (wsStrip (stripComments s))

/-- `cleaned.split(maxsplit=1)[0]`: the first whitespace-separated token. -/
def firstTokenOf (l : Str) : Str :=
  (l.dropWhile isSpaceC).takeWhile (fun c => !isSpaceC c)

/-- Bool prefix test (first list is a prefix of the second). -/
def isPre : List Char → List Char → Bool
  | [], _ => true
  | _ :: _, [] => false
  | a :: as', b :: bs => a == b && isPre as' bs

/-- Word test for the character preceding a match position (`\b` support);
`none` is the start of the string. -/
def prevWordB : Option Char → Bool
  | none => false
  | some c => isWordC c

/-- Whole-word match of `kw` at the head of `l`, with `prev` the character
just before `l` (regex `\bkw\b` anchored at this position). -/
def wwAt (kw : List Char) (prev : Option Char) (l : List Char) : Bool :=
  !prevWordB prev && isPre kw l &&
    (match l.drop kw.length with
     | [] => true
     | c :: _ => !isWordC c)

/-- Scan of `re.search(r"\bkw\b", text)`: true iff the whole word occurs
anywhere. -/
def wwGo (kw : List Char) : Option Char → List Char → Bool
  | _, [] => false
  | prev, c :: rest => wwAt kw prev (c :: rest) || wwGo kw (some c) rest

/-- `re.search(r"\bkw\b", text) is not None`. -/
def hasWholeWord (kw text : List Char) : Bool := wwGo kw none text

/-- Attempt to match `\blimit\s+(\d+)\b` (IGNORECASE) at the head of `l`;
returns the captured number.  `\s+` and `\d+` are effectively maximal here:
shorter choices make the following `\d`/`\b` fail. -/
def tryLimitAt (prev : Option Char) (l : List Char) : Option Nat :=
  if prevWordB prev then none
  else if lowerStr (l.take 5) ≠ str "limit" then none
  else if (((l.drop 5).takeWhile isSpaceC)).length = 0 then none
  else if ((((l.drop 5).dropWhile isSpaceC)).takeWhile isDigitC).length = 0 then none
  else
    match ((l.drop 5).dropWhile isSpaceC).drop
        ((((l.drop 5).dropWhile isSpaceC)).takeWhile isDigitC).length with
    | [] => some (evalDigits ((((l.drop 5).dropWhile isSpaceC)).takeWhile isDigitC))
    | c :: _ =>
      if isWordC c then none
      else some (evalDigits ((((l.drop 5).dropWhile isSpaceC)).takeWhile isDigitC))

/-- Leftmost-match scan for `_LIMIT_PATTERN.search`. -/
def limitGo : Option Char → List Char → Option Nat
  | _, [] => none
  | prev, c :: rest =>
    match tryLimitAt prev (c :: rest) with
    | some v => some v
    | none => limitGo (some c) rest

/-- `_LIMIT_PATTERN.search(text)`: value of the first `LIMIT n` clause. -/
def limitSearch (l : List Char) : Option Nat := limitGo none l

/-- `FORBIDDEN_SQL_KEYWORDS` from `guardrails.py`. -/
def forbiddenKeywords : List Str :=
  [str "alter", str "call", str "comment", str "copy", str "create",
   str "delete", str "drop", str "grant", str "insert", str "merge",
   str "reindex", str "revoke", str "truncate", str "update", str "vacuum"]

/-- `f" {cleaned.lower()} "`: the padded lowered text the keyword scan runs on. -/
def paddedLower (l : Str) : Str := ' ' :: (lowerStr l ++ [' '])

/-- `SqlGuardrailConfig` (dataclass defaults from `guardrails.py`). -/
structure SqlGuardrailConfig where
  default_limit : Nat := 50
  max_limit : Nat := 500
  max_sql_length : Nat := 20000
  statement_timeout_ms : Nat := 15000
  max_sql_attempts : Nat := 3

/-- The default configuration (no environment overrides). -/
def defaultSqlConfig : SqlGuardrailConfig := {}

/-- `validate_and_normalize_sql` from `guardrails.py`; `.error` carries the
`SqlGuardrailError` message. -/
def validate_and_normalize_sql (sql : Str) (config : SqlGuardrailConfig) :
    Except Str Str :=
  if config.max_sql_length < sql.length then
    .error (str "SQL exceeds maximum length (" ++ natDigits sql.length ++
      str " > " ++ natDigits config.max_sql_length ++ str ").")
  else if cleanse sql = [] then .error (str "SQL is empty after removing comments.")
  else if ';' ∈ cleanse sql then
    .error (str "Only one SQL statement is allowed per request.")
  else if lowerStr (firstTokenOf (cleanse sql)) ≠ str "select" ∧
      lowerStr (firstTokenOf (cleanse sql)) ≠ str "with" then
    .error (str "Only SELECT/WITH queries are allowed.")
  else
    match forbiddenKeywords.find? (fun kw => hasWholeWord kw (paddedLower (cleanse sql))) with
    | some kw => .error (str "Forbidden SQL keyword detected: " ++ kw)
    | none =>
      match limitSearch (cleanse sql) with
      | some v =>
        if config.max_limit < v then
          .error (str "Requested LIMIT " ++ natDigits v ++
            str " exceeds max_limit " ++ natDigits config.max_limit ++ str ".")
        else .ok (cleanse sql)
      | none => .ok (cleanse sql ++ '\n' :: (str "LIMIT " ++ natDigits config.default_limit))

example : validate_and_normalize_sql (str "SELECT 1 AS x") defaultSqlConfig =
    .ok (str "SELECT 1 AS x\nLIMIT 50") := by decide

example : validate_and_normalize_sql (str "SELECT 1; SELECT 2") defaultSqlConfig =
    .error (str "Only one SQL statement is allowed per request.") := by decide

example : validate_and_normalize_sql (str "delete from t") defaultSqlConfig =
    .error (str "Only SELECT/WITH queries are allowed.") := by decide

example : validate_and_normalize_sql (str "select x -- c\nfrom t limit 30") defaultSqlConfig =
    .ok (str "select x \nfrom t limit 30") := by decide

/-! ### Chunker (`src/dash/personal/ingest.py`) -/

/-- `text.split()`: maximal runs of non-whitespace characters.  `acc` holds
the current run in reverse. -/
def wordsGo : List Char → List Char → List (List Char)
  | acc, [] => if acc.isEmpty then [] else [acc.reverse]
  | acc, c :: rest =>
    if isSpaceC c then
      (if acc.isEmpty then wordsGo [] rest else acc.reverse :: wordsGo [] rest)
    else wordsGo (c :: acc) rest

/-- `text.split()`. -/
def pySplit (l : Str) : List Str := wordsGo [] l

/-- `" ".join(words)`. -/
def joinWords : List Str → Str
  | [] => []
  | [w] => w
  | w :: ws => w ++ ' ' :: joinWords ws

/-- `" ".join(text.split())`: whitespace normalization. -/
def normalizeWs (l : Str) : Str := joinWords (pySplit l)

/-- `chunk_size` default. -/
def chunkSize : Nat := 1200

/-- `overlap` default. -/
def chunkOverlap : Nat := 150

/-- The `while start < len(content)` loop of `chunk_text`, fueled for
structural recursion (one fuel unit per iteration, `content.length` is
plenty since `start` advances by `chunk_size - overlap` each round). -/
def chunkLoopF (content : List Char) : Nat → Nat → List (List Char)
  | 0, _ => []
  | fuel + 1, start =>
    if start < content.length then
      let e := min content.length (start + chunkSize)
      let ch := wsStrip ((content.drop start).take chunkSize)
      (if ch = [] then [] else [ch]) ++
        (if content.length ≤ e then [] else chunkLoopF content fuel (e - chunkOverlap))
    else []

/-- `chunk_text` from `ingest.py` (default `chunk_size=1200`, `overlap=150`). -/
def chunk_text (text : Str) : List Str :=
  let content := normalizeWs text
  if content.length ≤ chunkSize then (if content = [] then [] else [content])
  else chunkLoopF content content.length 0

example : chunk_text (str "  hello   world ") = [str "hello world"] := by decide

example : chunk_text (str " \t \n ") = [] := by decide

/-- The chunks "concatenated modulo the overlap": the first chunk in full,
each later chunk with its first `overlap` characters removed. -/
def overlapConcat : List Str → Str
  | [] => []
  | c :: rest => c ++ (rest.map (fun ch => ch.drop chunkOverlap)).flatten

/-- Character of `l` at index `i` (out of range gives a dummy). -/
def charAt (l : List Char) (i : Nat) : Char := (l[i]?).getD 'X'

theorem charAt_append_left {A B : List Char} {i : Nat} (h : i < A.length) :
    charAt (A ++ B) i = charAt A i := by
  simp [charAt, List.getElem?_append_left h]

theorem charAt_append_right {A B : List Char} {i : Nat} (h : A.length ≤ i) :
    charAt (A ++ B) i = charAt B (i - A.length) := by
  simp [charAt, List.getElem?_append_right h]

theorem charAt_replicate {c : Char} {n i : Nat} (h : i < n) :
    charAt (List.replicate n c) i = c := by
  simp [charAt, List.getElem?_replicate, h]

theorem charAt_cons_zero {c : Char} {l : List Char} : charAt (c :: l) 0 = c := by
  simp [charAt]

theorem charAt_cons_succ {c : Char} {l : List Char} {i : Nat} :
    charAt (c :: l) (i + 1) = charAt l i := by
  simp [charAt]

/-- Pushing a run of non-space characters into the `wordsGo` accumulator. -/
theorem wordsGo_run {c : Char} (hc : isSpaceC c = false) :
    ∀ (n : Nat) (acc rest : List Char),
      wordsGo acc (List.replicate n c ++ rest) =
        wordsGo (List.replicate n c ++ acc) rest := by
  intro n
  induction n with
  | zero => intro acc rest; simp
  | succ m ih =>
    intro acc rest
    rw [List.replicate_succ, List.cons_append, wordsGo]
    simp only [hc, Bool.false_eq_true, if_false]
    rw [ih (c :: acc) rest]
    congr 1
    calc List.replicate m c ++ c :: acc
        = List.replicate m c ++ ([c] ++ acc) := by rw [List.singleton_append]
      _ = (List.replicate m c ++ [c]) ++ acc := by rw [List.append_assoc]
      _ = List.replicate (m + 1) c ++ acc := by rw [← List.replicate_succ']
      _ = c :: (List.replicate m c ++ acc) := by rw [List.replicate_succ, List.cons_append]

/-- The concrete text of the chunker counterexample: 1199 letters, a space
at position 1199 (which the first window strips away), then 200 letters. -/
def ctext : Str := List.replicate 1199 'a' ++ ' ' :: List.replicate 200 'b'

/-- A 151-character substring of the normalized text that ends in the
stripped space. -/
def csub : Str := List.replicate 150 'a' ++ [' ']

theorem ctext_length : ctext.length = 1400 := by
  rw [ctext, List.length_append, List.length_replicate, List.length_cons,
    List.length_replicate]

theorem repl_isEmpty_false {c : Char} (n : Nat) :
    (List.replicate (n + 1) c).isEmpty = false := by
  rw [List.replicate_succ]; rfl

theorem pySplit_ctext :
    pySplit ctext = [List.replicate 1199 'a', List.replicate 200 'b'] := by
  unfold pySplit ctext
  rw [wordsGo_run (by decide), List.append_nil, wordsGo]
  have h1 : isSpaceC ' ' = true := by decide
  have h2 : (List.replicate 1199 'a').isEmpty = false := repl_isEmpty_false 1198
  simp only [h1, if_true, h2, Bool.false_eq_true, if_false, List.reverse_replicate]
  have hsecond : wordsGo [] (List.replicate 200 'b') = [List.replicate 200 'b'] := by
    rw [show List.replicate 200 'b' = List.replicate 200 'b' ++ [] from (List.append_nil _).symm,
      wordsGo_run (by decide), List.append_nil, wordsGo]
    have h3 : (List.replicate 200 'b').isEmpty = false := repl_isEmpty_false 199
    simp only [h3, Bool.false_eq_true, if_false, List.reverse_replicate]
  rw [hsecond]

theorem normalizeWs_ctext : normalizeWs ctext = ctext := by
  rw [normalizeWs, pySplit_ctext]
  show List.replicate 1199 'a' ++ ' ' :: joinWords [List.replicate 200 'b'] = ctext
  rfl

theorem wsStripL_cons_nonspace {c : Char} {l : List Char} (h : isSpaceC c = false) :
    wsStripL (c :: l) = c :: l := by
  simp [wsStripL, List.dropWhile_cons, h]

theorem wsStripR_append_nonspace {c : Char} {l : List Char} (h : isSpaceC c = false) :
    wsStripR (l ++ [c]) = l ++ [c] := by
  rw [wsStripR, List.reverse_append]
  show ((c :: l.reverse).dropWhile isSpaceC).reverse = _
  rw [List.dropWhile_cons]
  simp [h]

theorem wsStrip_repl_a_space :
    wsStrip (List.replicate 1199 'a' ++ [' ']) = List.replicate 1199 'a' := by
  have ha : isSpaceC 'a' = false := by decide
  have hL : wsStripL (List.replicate 1199 'a' ++ [' ']) =
      List.replicate 1199 'a' ++ [' '] := by
    rw [show (1199 : Nat) = 1198 + 1 from rfl, List.replicate_succ, List.cons_append,
      wsStripL_cons_nonspace ha]
  have hR : wsStripR (List.replicate 1199 'a' ++ [' ']) = List.replicate 1199 'a' := by
    rw [wsStripR, List.reverse_append, List.reverse_replicate]
    show ((' ' :: List.replicate 1199 'a').dropWhile isSpaceC).reverse = _
    rw [List.dropWhile_cons]
    simp only [show isSpaceC ' ' = true from rfl, if_true]
    rw [show (1199 : Nat) = 1198 + 1 from rfl, List.replicate_succ, List.dropWhile_cons]
    simp only [ha, Bool.false_eq_true, if_false]
    rw [← List.replicate_succ, List.reverse_replicate]
  rw [wsStrip, hL, hR]

/-- The first window of the counterexample text, stripped: the space at
index 1199 disappears. -/
theorem chunk1_ctext :
    wsStrip (ctext.take 1200) = List.replicate 1199 'a' := by
  rw [ctext, List.take_append_eq_append_take, List.take_replicate]
  have h1 : (1200 : Nat) ⊓ 1199 = 1199 := by norm_num
  have h2 : 1200 - (List.replicate 1199 'a').length = 1 := by
    rw [List.length_replicate]
  rw [h1, h2]
  show wsStrip (List.replicate 1199 'a' ++ [' ']) = _
  exact wsStrip_repl_a_space

/-- The second (last) window of the counterexample text, stripped: it starts
at 1050 and keeps its interior space. -/
theorem chunk2_ctext :
    wsStrip ((ctext.drop 1050).take 1200) =
      List.replicate 149 'a' ++ ' ' :: List.replicate 200 'b' := by
  have hdrop : ctext.drop 1050 = List.replicate 149 'a' ++ ' ' :: List.replicate 200 'b' := by
    rw [ctext, List.drop_append_eq_append_drop, List.drop_replicate]
    have h2 : 1050 - (List.replicate 1199 'a').length = 0 := by
      rw [List.length_replicate]
    rw [h2, List.drop_zero]
  rw [hdrop]
  have hlen : (List.replicate 149 'a' ++ ' ' :: List.replicate 200 'b').length = 350 := by
    simp only [List.length_append, List.length_replicate, List.length_cons]
  rw [List.take_of_length_le (by rw [hlen]; norm_num)]
  have ha : isSpaceC 'a' = false := by decide
  have hb : isSpaceC 'b' = false := by decide
  have hsplit : List.replicate 149 'a' ++ ' ' :: List.replicate 200 'b' =
      (List.replicate 149 'a' ++ ' ' :: List.replicate 199 'b') ++ ['b'] := by
    rw [show (200 : Nat) = 199 + 1 from rfl, List.replicate_succ' 199 'b',
      List.append_assoc, List.cons_append]
  rw [wsStrip, show (149 : Nat) = 148 + 1 from rfl, List.replicate_succ, List.cons_append,
    wsStripL_cons_nonspace ha, ← List.cons_append, ← List.replicate_succ]
  rw [hsplit, wsStripR_append_nonspace hb]

theorem chunkLoopF_step (content : List Char) (f start : Nat) (h : start < content.length) :
    chunkLoopF content (f + 1) start =
      (if wsStrip ((content.drop start).take chunkSize) = [] then []
       else [wsStrip ((content.drop start).take chunkSize)]) ++
      (if content.length ≤ min content.length (start + chunkSize) then []
       else chunkLoopF content f (min content.length (start + chunkSize) - chunkOverlap)) := by
  simp only [chunkLoopF, if_pos h]

set_option maxRecDepth 8000 in
theorem chunk_text_ctext :
    chunk_text ctext = [List.replicate 1199 'a',
      List.replicate 149 'a' ++ ' ' :: List.replicate 200 'b'] := by
  have hne1 : List.replicate 1199 'a' ≠ ([] : List Char) := by
    simp only [ne_eq, List.replicate_eq_nil_iff]
    omega
  have hne2 : List.replicate 149 'a' ++ ' ' :: List.replicate 200 'b' ≠ ([] : List Char) := by
    intro h
    have := congrArg List.length h
    simp only [List.length_append, List.length_replicate, List.length_cons,
      List.length_nil] at this
    omega
  simp only [chunk_text, normalizeWs_ctext, ctext_length, chunkSize]
  rw [if_neg (by norm_num : ¬ ((1400 : Nat) ≤ 1200))]
  rw [show (1400 : Nat) = 1399 + 1 from rfl,
    chunkLoopF_step ctext 1399 0 (by rw [ctext_length]; norm_num)]
  simp only [chunkSize, chunkOverlap, ctext_length, List.drop_zero, Nat.zero_add]
  have hmin : min (1400 : Nat) 1200 = 1200 := by norm_num
  simp only [hmin]
  rw [chunk1_ctext, if_neg hne1, if_neg (by norm_num : ¬ ((1400 : Nat) ≤ 1200))]
  rw [show (1200 : Nat) - 150 = 1050 from rfl]
  rw [show (1399 : Nat) = 1398 + 1 from rfl,
    chunkLoopF_step ctext 1398 1050 (by rw [ctext_length]; norm_num)]
  simp only [chunkSize, chunkOverlap, ctext_length]
  have hmin2 : min (1400 : Nat) (1050 + 1200) = 1400 := by norm_num
  simp only [hmin2]
  rw [chunk2_ctext, if_neg hne2, if_pos (le_refl 1400)]
  rfl

theorem drop150_chunk2 :
    (List.replicate 149 'a' ++ ' ' :: List.replicate 200 'b').drop 150 =
      List.replicate 200 'b' := by
  rw [List.drop_append_eq_append_drop, List.drop_replicate, List.length_replicate]
  rw [show (149 : Nat) - 150 = 0 from rfl, show (150 : Nat) - 149 = 1 from rfl]
  rw [List.replicate_zero, List.nil_append, List.drop_succ_cons, List.drop_zero]

theorem overlapConcat_ctext :
    overlapConcat (chunk_text ctext) =
      List.replicate 1199 'a' ++ List.replicate 200 'b' := by
  rw [chunk_text_ctext, overlapConcat]
  simp only [chunkOverlap, List.map_cons, List.map_nil, List.flatten_cons,
    List.flatten_nil, List.append_nil, drop150_chunk2]

theorem space_mem_csub : ' ' ∈ csub := by
  rw [csub]
  exact List.mem_append_right _ (by simp)

theorem csub_infix_normalized : csub <:+: normalizeWs ctext := by
  rw [normalizeWs_ctext]
  refine ⟨List.replicate 1049 'a', List.replicate 200 'b', ?_⟩
  rw [csub, ctext, ← List.append_assoc, ← List.replicate_add]
  rw [show (1049 : Nat) + 150 = 1199 from rfl]
  rw [List.append_assoc, List.singleton_append]

theorem csub_not_infix_chunk1 : ¬ csub <:+: List.replicate 1199 'a' := by
  intro h
  exact absurd (List.eq_of_mem_replicate (h.subset space_mem_csub)) (by decide)

theorem csub_not_infix_concat :
    ¬ csub <:+: (List.replicate 1199 'a' ++ List.replicate 200 'b') := by
  intro h
  rcases List.mem_append.mp (h.subset space_mem_csub) with h3 | h3
  · exact absurd (List.eq_of_mem_replicate h3) (by decide)
  · exact absurd (List.eq_of_mem_replicate h3) (by decide)

theorem csub_length : csub.length = 151 := by
  rw [csub, List.length_append, List.length_replicate]
  rfl

theorem csub_not_infix_chunk2 :
    ¬ csub <:+: (List.replicate 149 'a' ++ ' ' :: List.replicate 200 'b') := by
  rintro ⟨u, v, huv⟩
  have hlc := congrArg List.length huv
  simp only [List.length_append, List.length_cons, List.length_replicate,
    csub_length] at hlc
  have hRat : ∀ i, 150 ≤ i → i ≤ 199 →
      charAt (List.replicate 149 'a' ++ ' ' :: List.replicate 200 'b') i = 'b' := by
    intro i h1 h2
    rw [charAt_append_right (by rw [List.length_replicate]; omega)]
    rw [List.length_replicate, show i - 149 = (i - 150) + 1 by omega, charAt_cons_succ]
    exact charAt_replicate (by omega)
  have hR149 : charAt (List.replicate 149 'a' ++ ' ' :: List.replicate 200 'b') 149 = ' ' := by
    rw [charAt_append_right (by rw [List.length_replicate])]
    rw [List.length_replicate, Nat.sub_self]
    exact charAt_cons_zero
  by_cases hu : u.length ≤ 148
  · have hL : charAt ((u ++ csub) ++ v) 149 = 'a' := by
      rw [charAt_append_left (by rw [List.length_append, csub_length]; omega)]
      rw [charAt_append_right (by omega)]
      rw [csub, charAt_append_left (by rw [List.length_replicate]; omega)]
      exact charAt_replicate (by omega)
    rw [huv] at hL
    exact absurd (hL.symm.trans hR149) (by decide)
  · have hL : charAt ((u ++ csub) ++ v) u.length = 'a' := by
      rw [charAt_append_left (by rw [List.length_append, csub_length]; omega)]
      rw [charAt_append_right (le_refl _)]
      rw [Nat.sub_self, csub, charAt_append_left (by rw [List.length_replicate]; omega)]
      exact charAt_replicate (by omega)
    rw [huv] at hL
    by_cases hu2 : u.length = 149
    · rw [hu2] at hL
      exact absurd (hL.symm.trans hR149) (by decide)
    · have hR := hRat u.length (by omega) (by omega)
      exact absurd (hL.symm.trans hR) (by decide)

/-- C6 counterexample: for the (already normalized) text of 1199 `a`s, one
space and 200 `b`s, the 151-character substring `a^150 ++ " "` of the
whitespace-normalized input appears in no emitted chunk and not in the
chunks concatenated modulo the overlap: the in-loop `.strip()` removes the
space sitting at the boundary of the first window.  This refutes the claim
that the emitted chunks, concatenated modulo the overlap, contain every
substring of the whitespace-normalized input. -/
theorem c6_counterexample :
    csub <:+: normalizeWs ctext ∧
      (∀ ch ∈ chunk_text ctext, ¬ csub <:+: ch) ∧
      ¬ csub <:+: overlapConcat (chunk_text ctext) := by
  refine ⟨csub_infix_normalized, ?_, ?_⟩
  · intro ch hch
    rw [chunk_text_ctext] at hch
    simp only [List.mem_cons, List.not_mem_nil, or_false] at hch
    rcases hch with rfl | rfl
    · exact csub_not_infix_chunk1
    · exact csub_not_infix_chunk2
  · rw [overlapConcat_ctext]
    exact csub_not_infix_concat

/-- A nonempty run of non-whitespace survives a leading `dropWhile`. -/
theorem infix_dropWhile_of_nonspace {s : List Char} {p : Char → Bool}
    (hne : s ≠ []) (hs : ∀ c ∈ s, p c = false) :
    ∀ {l : List Char}, s <:+: l → s <:+: l.dropWhile p := by
  intro l
  induction l with
  | nil => intro h; rw [List.infix_nil] at h; exact absurd h hne
  | cons c rest ih =>
    intro h
    rw [List.dropWhile_cons]
    by_cases hp : p c = true
    · simp only [hp, if_true]
      rcases List.infix_cons_iff.mp h with hpre | hinf
      · rcases List.prefix_cons_iff.mp hpre with rfl | ⟨t, rfl, _⟩
        · exact absurd rfl hne
        · exact absurd (hs c (List.mem_cons_self _ _)) (by simp [hp])
      · exact ih hinf
    · simp only [hp, if_false]
      exact h

/-- A nonempty non-whitespace fragment survives `str.strip()`. -/
theorem infix_wsStrip {s w : List Char} (hne : s ≠ [])
    (hs : ∀ c ∈ s, isSpaceC c = false) (h : s <:+: w) : s <:+: wsStrip w := by
  have hsr : ∀ c ∈ s.reverse, isSpaceC c = false := fun c hc =>
    hs c (List.mem_reverse.mp hc)
  have hner : s.reverse ≠ [] := by simpa using hne
  have h1 : s <:+: wsStripL w := infix_dropWhile_of_nonspace hne hs h
  rw [wsStrip, wsStripR, ← List.reverse_infix, List.reverse_reverse]
  exact infix_dropWhile_of_nonspace hner hsr (by rw [List.reverse_infix]; exact h1)

/-- A slice lying inside a window of `content` is an infix of that window. -/
theorem slice_infix_window (content : List Char) (start p L : Nat)
    (h1 : start ≤ p) (h2 : p + L ≤ start + chunkSize) :
    (content.drop p).take L <:+: (content.drop start).take chunkSize := by
  have key : ((content.drop start).take chunkSize).drop (p - start) =
      (content.drop p).take (chunkSize - (p - start)) := by
    have hidx : start + (p - start) = p := by omega
    rw [List.drop_take, List.drop_drop, hidx]
  have hLmin : L ⊓ (chunkSize - (p - start)) = L := by
    rw [inf_eq_min]
    exact min_eq_left (by omega)
  have h3 : (content.drop p).take L =
      (((content.drop start).take chunkSize).drop (p - start)).take L := by
    rw [key, List.take_take, hLmin]
  rw [h3]
  exact ((List.take_prefix _ _).isInfix).trans ((List.drop_suffix _ _).isInfix)

/-- The slice is nonempty when it starts inside the list with positive length. -/
theorem slice_ne_nil (content : List Char) (p L : Nat) (hL : 0 < L)
    (hp : p < content.length) : (content.drop p).take L ≠ [] := by
  intro h
  have := congrArg List.length h
  simp only [List.length_take, List.length_drop, List.length_nil] at this
  omega

/-- Every short space-free slice of `content` lands inside one of the loop's
stripped windows. -/
theorem chunkLoopF_coverage (content : List Char) :
    ∀ (fuel start p L : Nat),
      start < content.length →
      content.length - start ≤ fuel →
      start ≤ p → 0 < L → L ≤ chunkOverlap + 1 → p + L ≤ content.length →
      (∀ c ∈ (content.drop p).take L, isSpaceC c = false) →
      ∃ ch ∈ chunkLoopF content fuel start, (content.drop p).take L <:+: ch := by
  intro fuel
  induction fuel with
  | zero => intro start p L h1 h2; omega
  | succ f ih =>
    intro start p L hstart hfuel hsp hL hL151 hpL hsfree
    by_cases hin : p + L ≤ min content.length (start + chunkSize)
    · -- the slice fits in this window
      have hwin : (content.drop p).take L <:+: (content.drop start).take chunkSize :=
        slice_infix_window content start p L hsp (le_trans hin (min_le_right _ _))
      have hne : (content.drop p).take L ≠ [] := slice_ne_nil content p L hL (by omega)
      have hstripped : (content.drop p).take L <:+:
          wsStrip ((content.drop start).take chunkSize) :=
        infix_wsStrip hne hsfree hwin
      have hchne : wsStrip ((content.drop start).take chunkSize) ≠ [] := by
        intro hnil
        rw [hnil, List.infix_nil] at hstripped
        exact hne hstripped
      refine ⟨wsStrip ((content.drop start).take chunkSize), ?_, hstripped⟩
      rw [chunkLoopF_step content f start hstart, if_neg hchne]
      exact List.mem_append_left _ (List.mem_singleton_self _)
    · -- the slice runs past this window: recurse on the next start
      rcases Nat.lt_or_ge (start + chunkSize) content.length with hlt | hge
      · have hmin : min content.length (start + chunkSize) = start + chunkSize :=
          min_eq_right (le_of_lt hlt)
        rw [hmin] at hin
        have hcs : chunkOverlap < chunkSize := by norm_num [chunkOverlap, chunkSize]
        have hrec := ih (start + chunkSize - chunkOverlap) p L
          (by omega) (by omega) (by omega) hL hL151 hpL hsfree
        obtain ⟨ch, hch, hinf⟩ := hrec
        refine ⟨ch, ?_, hinf⟩
        rw [chunkLoopF_step content f start hstart, hmin,
          if_neg (show ¬ content.length ≤ start + chunkSize by omega)]
        exact List.mem_append_right _ hch
      · have hmin : min content.length (start + chunkSize) = content.length :=
          min_eq_left hge
        rw [hmin] at hin
        exact absurd hpL hin

/-- The window start positions visited by the `chunk_text` loop. -/
def chunkStartsF (len : Nat) : Nat → Nat → List Nat
  | 0, _ => []
  | fuel + 1, start =>
    if start < len then
      start :: (if len ≤ min len (start + chunkSize) then []
        else chunkStartsF len fuel (min len (start + chunkSize) - chunkOverlap))
    else []

/-- Start positions of all windows for a text of length `len > chunkSize`. -/
def chunkStarts (len : Nat) : List Nat := chunkStartsF len len 0

theorem wsStrip_length_le (l : List Char) : (wsStrip l).length ≤ l.length := by
  calc (wsStrip l).length ≤ (wsStripL l).length := by
        rw [wsStrip, wsStripR]
        have hsub : List.Sublist ((wsStripL l).reverse.dropWhile isSpaceC)
            ((wsStripL l).reverse) := List.dropWhile_sublist isSpaceC
        simpa using hsub.length_le
    _ ≤ l.length := (List.dropWhile_sublist _).length_le

/-- The loop output is exactly the stripped windows at the visited starts,
with empty results filtered out. -/
theorem chunkLoopF_eq_map_filter (content : List Char) :
    ∀ (fuel start : Nat),
      chunkLoopF content fuel start =
        ((chunkStartsF content.length fuel start).map
          (fun st => wsStrip ((content.drop st).take chunkSize))).filter
          (fun ch => !ch.isEmpty) := by
  intro fuel
  induction fuel with
  | zero => intro start; rfl
  | succ f ih =>
    intro start
    by_cases hs : start < content.length
    · rw [chunkLoopF_step content f start hs, chunkStartsF, if_pos hs, List.map_cons,
        List.filter_cons]
      by_cases hw0 : wsStrip ((content.drop start).take chunkSize) = []
      · rw [if_pos hw0,
          if_neg (show ¬ ((!List.isEmpty (wsStrip ((content.drop start).take chunkSize))) =
            true) from by simp [hw0]), List.nil_append]
        by_cases ht : content.length ≤ min content.length (start + chunkSize)
        · rw [if_pos ht, if_pos ht]
          rfl
        · rw [if_neg ht, if_neg ht, ih]
      · rw [if_neg hw0,
          if_pos (show (!List.isEmpty (wsStrip ((content.drop start).take chunkSize))) =
            true from by simp [hw0]), List.singleton_append]
        by_cases ht : content.length ≤ min content.length (start + chunkSize)
        · rw [if_pos ht, if_pos ht]
          rfl
        · rw [if_neg ht, if_neg ht, ih]
    · rw [chunkStartsF, if_neg hs]
      show chunkLoopF content (f + 1) start = _
      rw [chunkLoopF]
      rw [if_neg hs]
      rfl

theorem chunkStartsF_head (len : Nat) :
    ∀ (fuel start y : Nat), (chunkStartsF len fuel start).head? = some y → y = start := by
  intro fuel
  cases fuel with
  | zero => intro start y h; simp [chunkStartsF] at h
  | succ f =>
    intro start y h
    rw [chunkStartsF] at h
    by_cases hs : start < len
    · rw [if_pos hs] at h
      simpa using h.symm
    · rw [if_neg hs] at h
      simp at h

/-- Consecutive window starts differ by `chunk_size - overlap` (= 1050). -/
theorem chunkStartsF_chain (len : Nat) :
    ∀ (fuel start : Nat),
      List.Chain' (fun a b => b = a + (chunkSize - chunkOverlap))
        (chunkStartsF len fuel start) := by
  intro fuel
  induction fuel with
  | zero => intro start; simp [chunkStartsF]
  | succ f ih =>
    intro start
    rw [chunkStartsF]
    by_cases hs : start < len
    · rw [if_pos hs]
      by_cases ht : len ≤ min len (start + chunkSize)
      · rw [if_pos ht]
        simp
      · rw [if_neg ht]
        have hmin : min len (start + chunkSize) = start + chunkSize := by
          rcases Nat.lt_or_ge (start + chunkSize) len with hlt | hge
          · exact min_eq_right (le_of_lt hlt)
          · exact absurd (Nat.le_of_eq (min_eq_left hge).symm) ht
        rw [hmin]
        rw [List.chain'_cons']
        refine ⟨?_, ih _⟩
        intro y hy
        have := chunkStartsF_head len f (start + chunkSize - chunkOverlap) y hy
        have hcs : chunkOverlap < chunkSize := by norm_num [chunkOverlap, chunkSize]
        omega
    · rw [if_neg hs]
      simp

/-- All chunks of the loop are nonempty and at most `chunkSize` long. -/
theorem chunkLoopF_bounds (content : List Char) :
    ∀ (fuel start : Nat), ∀ ch ∈ chunkLoopF content fuel start,
      ch ≠ [] ∧ ch.length ≤ chunkSize := by
  intro fuel
  induction fuel with
  | zero => intro start ch h; simp [chunkLoopF] at h
  | succ f ih =>
    intro start ch h
    by_cases hs : start < content.length
    · rw [chunkLoopF_step content f start hs] at h
      rcases List.mem_append.mp h with h1 | h1
      · by_cases hw : wsStrip ((content.drop start).take chunkSize) = []
        · rw [if_pos hw] at h1
          simp at h1
        · rw [if_neg hw] at h1
          rcases List.mem_singleton.mp h1 with rfl
          refine ⟨hw, ?_⟩
          calc (wsStrip ((content.drop start).take chunkSize)).length
              ≤ ((content.drop start).take chunkSize).length := wsStrip_length_le _
            _ ≤ chunkSize := by rw [List.length_take]; omega
      · by_cases ht : content.length ≤ min content.length (start + chunkSize)
        · rw [if_pos ht] at h1
          simp at h1
        · rw [if_neg ht] at h1
          exact ih _ ch h1
    · rw [chunkLoopF] at h
      rw [if_neg hs] at h
      simp at h

theorem slice_of_infix {s content : List Char} (u v : List Char)
    (huv : u ++ s ++ v = content) :
    (content.drop u.length).take s.length = s := by
  rw [← huv, List.append_assoc, List.drop_left, List.take_left]

/-- Claim C6 (amended): `chunk_text` whitespace-normalizes its input; a
normalized text of length at most 1200 is returned as the single chunk
(none for empty input); otherwise the output is the list of stripped
windows of size at most 1200 whose starts advance by
`chunk_size - overlap = 1050`; no chunk is empty; and every nonempty
space-free substring of the normalized input of length at most
`overlap + 1 = 151` occurs inside some chunk.  (The original claim, that
the chunks concatenated modulo the overlap contain *every* substring of the
normalized input, fails because the in-loop `.strip()` can delete a space
at a window boundary; see the counterexample.) -/
theorem c6_chunker :
    ∀ text : Str,
      (∀ ch ∈ chunk_text text, ch ≠ [] ∧ ch.length ≤ chunkSize) ∧
      ((normalizeWs text).length ≤ chunkSize →
        chunk_text text = if normalizeWs text = [] then [] else [normalizeWs text]) ∧
      (chunkSize < (normalizeWs text).length →
        chunk_text text =
          ((chunkStarts (normalizeWs text).length).map
            (fun st => wsStrip (((normalizeWs text).drop st).take chunkSize))).filter
            (fun ch => !ch.isEmpty) ∧
        List.Chain' (fun a b => b = a + (chunkSize - chunkOverlap))
          (chunkStarts (normalizeWs text).length)) ∧
      (∀ s : Str, s ≠ [] → s.length ≤ chunkOverlap + 1 →
        (∀ c ∈ s, isSpaceC c = false) → s <:+: normalizeWs text →
        ∃ ch ∈ chunk_text text, s <:+: ch) := by
  intro text
  refine ⟨?_, ?_, ?_, ?_⟩
  · -- chunks are nonempty and bounded by the window size
    intro ch hch
    rw [chunk_text] at hch
    by_cases hlen : (normalizeWs text).length ≤ chunkSize
    · rw [if_pos hlen] at hch
      by_cases hnil : normalizeWs text = []
      · rw [if_pos hnil] at hch
        simp at hch
      · rw [if_neg hnil] at hch
        rcases List.mem_singleton.mp hch with rfl
        exact ⟨hnil, hlen⟩
    · rw [if_neg hlen] at hch
      exact chunkLoopF_bounds (normalizeWs text) _ _ ch hch
  · -- short text: a single chunk
    intro hlen
    rw [chunk_text, if_pos hlen]
  · -- long text: stripped windows at starts stepping by 1050
    intro hlen
    constructor
    · rw [chunk_text, if_neg (by omega), chunkLoopF_eq_map_filter, chunkStarts]
    · exact chunkStartsF_chain _ _ 0
  · -- coverage of short space-free substrings
    intro s hne hlen hfree hinf
    obtain ⟨u, v, huv⟩ := hinf
    have hslice := slice_of_infix u v huv
    have htot := congrArg List.length huv
    simp only [List.length_append] at htot
    have hpos : 0 < s.length := List.length_pos.mpr hne
    by_cases hshort : (normalizeWs text).length ≤ chunkSize
    · have hnn : normalizeWs text ≠ [] := by
        intro hnil
        rw [hnil] at huv
        exact hne (List.append_eq_nil.mp (List.append_eq_nil.mp huv).1).2
      refine ⟨normalizeWs text, ?_, ⟨u, v, huv⟩⟩
      rw [chunk_text, if_pos hshort, if_neg hnn]
      exact List.mem_singleton_self _
    · have hcov := chunkLoopF_coverage (normalizeWs text) (normalizeWs text).length 0
        u.length s.length (by omega) (by omega) (Nat.zero_le _) hpos hlen
        (by omega) (by rw [hslice]; exact hfree)
      rw [hslice] at hcov
      obtain ⟨ch, hch, hinf2⟩ := hcov
      refine ⟨ch, ?_, hinf2⟩
      rw [chunk_text, if_neg hshort]
      exact hch

/-- Witness for C6: a concrete short text normalizes and chunks as the
amended claim states. -/
theorem c6_witness : chunk_text (str "  hello  world ") = [str "hello world"] := by
  have h := (c6_chunker (str "  hello  world ")).2.1 (by decide)
  rw [h]
  decide

/-! ### Claims C3, C4: guardrail normalization and rejection -/

/-- Rejection cause: input longer than the configured maximum. -/
def sqlTooLong (s : Str) (c : SqlGuardrailConfig) : Prop := c.max_sql_length < s.length

/-- Rejection cause: nothing left after comment stripping and trimming. -/
def sqlEmptyAfterStrip (s : Str) : Prop := cleanse s = []

/-- Rejection cause: a semicolon remains in the cleaned text. -/
def sqlMultiStatement (s : Str) : Prop := ';' ∈ cleanse s

/-- Rejection cause: the first token is neither `select` nor `with`. -/
def sqlBadFirstToken (s : Str) : Prop :=
  lowerStr (firstTokenOf (cleanse s)) ≠ str "select" ∧
    lowerStr (firstTokenOf (cleanse s)) ≠ str "with"

/-- Rejection cause: a forbidden keyword occurs as a whole word. -/
def sqlForbiddenKeyword (s : Str) : Prop :=
  ∃ kw ∈ forbiddenKeywords, hasWholeWord kw (paddedLower (cleanse s)) = true

/-- Rejection cause: the `LIMIT n` clause found by the pattern search exceeds
the configured maximum. -/
def sqlLimitTooHigh (s : Str) (c : SqlGuardrailConfig) : Prop :=
  ∃ v, limitSearch (cleanse s) = some v ∧ c.max_limit < v

/-- Claim C3: whenever validation succeeds and the cleaned text has no
`LIMIT n` clause, the result is exactly the cleaned text followed by a
newline and `LIMIT {default_limit}`; with the default configuration,
`SELECT 1 AS x` normalizes to `SELECT 1 AS x\nLIMIT 50`. -/
theorem c3_default_limit_appended :
    (∀ (s : Str) (c : SqlGuardrailConfig) (t : Str),
      validate_and_normalize_sql s c = .ok t →
      limitSearch (cleanse s) = none →
      t = cleanse s ++ '\n' :: (str "LIMIT " ++ natDigits c.default_limit)) ∧
    validate_and_normalize_sql (str "SELECT 1 AS x") defaultSqlConfig =
      .ok (str "SELECT 1 AS x\nLIMIT 50") := by
  constructor
  · intro s c t hok hnone
    rw [validate_and_normalize_sql] at hok
    split at hok
    · exact absurd hok (by simp)
    split at hok
    · exact absurd hok (by simp)
    split at hok
    · exact absurd hok (by simp)
    split at hok
    · exact absurd hok (by simp)
    split at hok
    · exact absurd hok (by simp)
    · rw [hnone] at hok
      simpa using hok.symm
  · decide

/-- Witness for C3: the general statement applied to a fresh concrete input. -/
theorem c3_witness :
    str "select 2 as y\nLIMIT 50" =
      cleanse (str "select 2 as y") ++ '\n' ::
        (str "LIMIT " ++ natDigits defaultSqlConfig.default_limit) :=
  c3_default_limit_appended.1 (str "select 2 as y") defaultSqlConfig
    (str "select 2 as y\nLIMIT 50") (by decide) (by decide)

/-- Claim C4: `validate_and_normalize_sql` raises a guardrail error exactly
when one of the six rejection causes holds; `SELECT 1; SELECT 2` is
rejected with the single-statement message; an input of exactly
`max_sql_length` passes and one character over fails; `LIMIT` equal to
`max_limit` passes and one over fails. -/
theorem c4_guardrail_rejection :
    (∀ (s : Str) (c : SqlGuardrailConfig),
      (∃ e, validate_and_normalize_sql s c = .error e) ↔
        (sqlTooLong s c ∨ sqlEmptyAfterStrip s ∨ sqlMultiStatement s ∨
          sqlBadFirstToken s ∨ sqlForbiddenKeyword s ∨ sqlLimitTooHigh s c)) ∧
    validate_and_normalize_sql (str "SELECT 1; SELECT 2") defaultSqlConfig =
      .error (str "Only one SQL statement is allowed per request.") ∧
    validate_and_normalize_sql (str "SELECT 1 AS colz")
      { defaultSqlConfig with max_sql_length := 16 } =
      .ok (str "SELECT 1 AS colz\nLIMIT 50") ∧
    validate_and_normalize_sql (str "SELECT 1 AS colzy")
      { defaultSqlConfig with max_sql_length := 16 } =
      .error (str "SQL exceeds maximum length (17 > 16).") ∧
    validate_and_normalize_sql (str "SELECT 1 LIMIT 500") defaultSqlConfig =
      .ok (str "SELECT 1 LIMIT 500") ∧
    validate_and_normalize_sql (str "SELECT 1 LIMIT 501") defaultSqlConfig =
      .error (str "Requested LIMIT 501 exceeds max_limit 500.") := by
  refine ⟨?_, by decide, by decide, by decide, by decide, by decide⟩
  intro s c
  by_cases h1 : c.max_sql_length < s.length
  · exact ⟨fun _ => Or.inl h1,
      fun _ => ⟨_, by rw [validate_and_normalize_sql, if_pos h1]⟩⟩
  · by_cases h2 : cleanse s = []
    · exact ⟨fun _ => Or.inr (Or.inl h2),
        fun _ => ⟨_, by rw [validate_and_normalize_sql, if_neg h1, if_pos h2]⟩⟩
    · by_cases h3 : ';' ∈ cleanse s
      · exact ⟨fun _ => Or.inr (Or.inr (Or.inl h3)),
          fun _ => ⟨_, by rw [validate_and_normalize_sql, if_neg h1, if_neg h2,
            if_pos h3]⟩⟩
      · by_cases h4 : lowerStr (firstTokenOf (cleanse s)) ≠ str "select" ∧
            lowerStr (firstTokenOf (cleanse s)) ≠ str "with"
        · exact ⟨fun _ => Or.inr (Or.inr (Or.inr (Or.inl h4))),
            fun _ => ⟨_, by rw [validate_and_normalize_sql, if_neg h1, if_neg h2,
              if_neg h3, if_pos h4]⟩⟩
        · cases hfind : forbiddenKeywords.find?
              (fun kw => hasWholeWord kw (paddedLower (cleanse s))) with
          | some kw =>
            exact ⟨fun _ => Or.inr (Or.inr (Or.inr (Or.inr (Or.inl
              ⟨kw, List.mem_of_find?_eq_some hfind,
                by simpa using List.find?_some hfind⟩)))),
              fun _ => ⟨_, by
                rw [validate_and_normalize_sql, if_neg h1, if_neg h2, if_neg h3, if_neg h4]
                simp only [hfind]
                rfl⟩⟩
          | none =>
            have hnokw : ¬ sqlForbiddenKeyword s := by
              rintro ⟨kw, hmem, hww⟩
              exact absurd hww (by simpa using List.find?_eq_none.mp hfind kw hmem)
            cases hlim : limitSearch (cleanse s) with
            | some v =>
              by_cases h6 : c.max_limit < v
              · exact ⟨fun _ => Or.inr (Or.inr (Or.inr (Or.inr (Or.inr ⟨v, hlim, h6⟩)))),
                  fun _ => ⟨_, by
                    rw [validate_and_normalize_sql, if_neg h1, if_neg h2, if_neg h3,
                      if_neg h4]
                    simp only [hfind, hlim, if_pos h6]
                    rfl⟩⟩
              · constructor
                · rintro ⟨e, he⟩
                  rw [validate_and_normalize_sql, if_neg h1, if_neg h2, if_neg h3,
                    if_neg h4] at he
                  simp only [hfind, hlim, if_neg h6] at he
                  exact absurd he (by simp)
                · rintro (h | h | h | h | h | ⟨v2, hv2, hgt⟩)
                  · exact absurd h h1
                  · exact absurd h h2
                  · exact absurd h h3
                  · exact absurd h h4
                  · exact absurd h hnokw
                  · rw [hlim] at hv2
                    cases hv2
                    exact absurd hgt h6
            | none =>
              constructor
              · rintro ⟨e, he⟩
                rw [validate_and_normalize_sql, if_neg h1, if_neg h2, if_neg h3,
                  if_neg h4] at he
                simp only [hfind, hlim] at he
                exact absurd he (by simp)
              · rintro (h | h | h | h | h | ⟨v2, hv2, _⟩)
                · exact absurd h h1
                · exact absurd h h2
                · exact absurd h h3
                · exact absurd h h4
                · exact absurd h hnokw
                · rw [hlim] at hv2
                  exact absurd hv2 (by simp)

/-! ### Claim C10: re-validation of accepted SQL -/

/-- C10 counterexample: the input `SELECT 1 - 2` with a block comment
`x` wedged between the minus sign and a second minus sign is accepted;
comment stripping glues the two minus signs into a line-comment marker, so
the accepted output contains a line comment, and re-validating it strips
that comment and returns a different string.  `validate_and_normalize_sql`
is therefore not idempotent on accepted inputs. -/
theorem c10_counterexample :
    validate_and_normalize_sql (str "SELECT 1 -/*x*/- 2") defaultSqlConfig =
      .ok (str "SELECT 1 -- 2\nLIMIT 50") ∧
    validate_and_normalize_sql (str "SELECT 1 -- 2\nLIMIT 50") defaultSqlConfig =
      .ok (str "SELECT 1 \nLIMIT 50") ∧
    str "SELECT 1 \nLIMIT 50" ≠ str "SELECT 1 -- 2\nLIMIT 50" :=
  ⟨by decide, by decide, by decide⟩

theorem beq_false_of_pred {a c : Char} (P : Char → Bool) (ha : P a = true)
    (hc : P c = false) : (a == c) = false := by
  rw [beq_eq_false_iff_ne]
  rintro rfl
  rw [ha] at hc
  exact Bool.noConfusion hc

theorem takeWhile_all {p : Char → Bool} :
    ∀ {a : List Char}, (∀ x ∈ a, p x = true) → a.takeWhile p = a := by
  intro a
  induction a with
  | nil => intro _; rfl
  | cons c rest ih =>
    intro h
    rw [List.takeWhile_cons, if_pos (h c (List.mem_cons_self _ _)),
      ih (fun x hx => h x (List.mem_cons_of_mem _ hx))]

theorem dropWhile_all {p : Char → Bool} :
    ∀ {a : List Char}, (∀ x ∈ a, p x = true) → a.dropWhile p = [] := by
  intro a
  induction a with
  | nil => intro _; rfl
  | cons c rest ih =>
    intro h
    rw [List.dropWhile_cons, if_pos (h c (List.mem_cons_self _ _))]
    exact ih (fun x hx => h x (List.mem_cons_of_mem _ hx))

theorem takeWhile_append_all {p : Char → Bool} {a b : List Char}
    (h : ∀ x ∈ a, p x = true) : (a ++ b).takeWhile p = a ++ b.takeWhile p := by
  rw [List.takeWhile_append, if_pos (by rw [takeWhile_all h])]

theorem dropWhile_append_all {p : Char → Bool} {a b : List Char}
    (h : ∀ x ∈ a, p x = true) : (a ++ b).dropWhile p = b.dropWhile p := by
  rw [List.dropWhile_append, if_pos (by rw [dropWhile_all h]; rfl)]

theorem takeWhile_append_ne {p : Char → Bool} {a b : List Char}
    (h : a.dropWhile p ≠ []) : (a ++ b).takeWhile p = a.takeWhile p := by
  rw [List.takeWhile_append, if_neg]
  intro hlen
  have hpref : List.IsPrefix (a.takeWhile p) a := List.takeWhile_prefix p
  have := hpref.eq_of_length hlen
  have hd : a.dropWhile p = [] := by
    have hsplit : a.takeWhile p ++ a.dropWhile p = a := List.takeWhile_append_dropWhile p a
    rw [this] at hsplit
    have := congrArg List.length hsplit
    simp only [List.length_append] at this
    exact List.eq_nil_of_length_eq_zero (by omega)
  exact h hd

theorem dropWhile_append_ne {p : Char → Bool} {a b : List Char}
    (h : a.dropWhile p ≠ []) : (a ++ b).dropWhile p = a.dropWhile p ++ b := by
  rw [List.dropWhile_append, if_neg (by simpa [List.isEmpty_iff] using h)]

theorem isPre_append_of_le {kw : List Char} :
    ∀ {S : List Char}, kw.length ≤ S.length → ∀ (X : List Char),
      isPre kw (S ++ X) = isPre kw S := by
  induction kw with
  | nil => intro S _ X; rfl
  | cons a as ih =>
    intro S hlen X
    cases S with
    | nil => simp at hlen
    | cons b bs =>
      rw [List.cons_append]
      show (a == b && isPre as (bs ++ X)) = (a == b && isPre as bs)
      rw [ih (by simpa using hlen) X]

theorem isPre_overrun {c0 : Char} (hc : isAlphaC c0 = false) {kw : List Char}
    (halpha : ∀ c ∈ kw, isAlphaC c = true) :
    ∀ {S : List Char}, S.length < kw.length → ∀ (R : List Char),
      isPre kw (S ++ c0 :: R) = false := by
  induction kw with
  | nil => intro S h; simp at h
  | cons a as ih =>
    intro S hlen R
    cases S with
    | nil =>
      show (a == c0 && isPre as R) = false
      rw [beq_false_of_pred isAlphaC (halpha a (List.mem_cons_self _ _)) hc]
      rfl
    | cons b bs =>
      rw [List.cons_append]
      show (a == b && isPre as (bs ++ c0 :: R)) = false
      rw [ih (fun c hcm => halpha c (List.mem_cons_of_mem _ hcm)) (by simpa using hlen) R]
      rw [Bool.and_false]

theorem wwAt_false_of_prev {kw : Str} {prev : Option Char} {l : List Char}
    (h : prevWordB prev = true) : wwAt kw prev l = false := by
  simp [wwAt, h]

theorem wwAt_false_of_not_pre {kw : Str} {prev : Option Char} {l : List Char}
    (h : isPre kw l = false) : wwAt kw prev l = false := by
  simp [wwAt, h]

theorem wwAt_false_of_boundary {kw : Str} {prev : Option Char} {l : List Char}
    {c : Char} {rest : List Char} (h : l.drop kw.length = c :: rest)
    (hc : isWordC c = true) : wwAt kw prev l = false := by
  simp [wwAt, h, hc]

theorem wwGo_cons_false {kw : Str} {prev : Option Char} {c : Char} {rest : List Char}
    (h1 : wwAt kw prev (c :: rest) = false) (h2 : wwGo kw (some c) rest = false) :
    wwGo kw prev (c :: rest) = false := by
  rw [wwGo, h1, h2]
  rfl

theorem digit_not_alpha {c : Char} (h : isDigitC c = true) : isAlphaC c = false := by
  simp only [isDigitC, Bool.and_eq_true, decide_eq_true_eq] at h
  rw [Bool.eq_false_iff]
  intro hA
  simp only [isAlphaC, isUpperC, isLowerC, Bool.or_eq_true, Bool.and_eq_true,
    decide_eq_true_eq] at hA
  omega

theorem digit_not_space {c : Char} (h : isDigitC c = true) : isSpaceC c = false := by
  simp only [isDigitC, Bool.and_eq_true, decide_eq_true_eq] at h
  rw [Bool.eq_false_iff]
  intro hs
  simp only [isSpaceC, Bool.or_eq_true, beq_iff_eq] at hs
  rcases hs with ((((rfl | rfl) | rfl) | rfl) | rfl) | rfl <;> exact absurd h (by decide)

/-- If `kw` is within the keyword scan reach of the literal block
`limit …`, it must be one of the prefixes of `limit`. -/
theorem alpha_isPre_limit {kw : Str} (halpha : ∀ c ∈ kw, isAlphaC c = true)
    {R : List Char}
    (h : isPre kw ('l' :: 'i' :: 'm' :: 'i' :: 't' :: ' ' :: R) = true) :
    kw = [] ∨ kw = ['l'] ∨ kw = str "li" ∨ kw = str "lim" ∨ kw = str "limi" ∨
      kw = str "limit" := by
  rcases kw with _ | ⟨a, _ | ⟨b, _ | ⟨c, _ | ⟨d, _ | ⟨e, rest⟩⟩⟩⟩⟩
  · exact Or.inl rfl
  · simp only [isPre, Bool.and_eq_true, beq_iff_eq] at h
    obtain ⟨rfl, -⟩ := h
    exact Or.inr (Or.inl rfl)
  · simp only [isPre, Bool.and_eq_true, beq_iff_eq] at h
    obtain ⟨rfl, rfl, -⟩ := h
    exact Or.inr (Or.inr (Or.inl rfl))
  · simp only [isPre, Bool.and_eq_true, beq_iff_eq] at h
    obtain ⟨rfl, rfl, rfl, -⟩ := h
    exact Or.inr (Or.inr (Or.inr (Or.inl rfl)))
  · simp only [isPre, Bool.and_eq_true, beq_iff_eq] at h
    obtain ⟨rfl, rfl, rfl, rfl, -⟩ := h
    exact Or.inr (Or.inr (Or.inr (Or.inr (Or.inl rfl))))
  · cases rest with
    | nil =>
      simp only [isPre, Bool.and_eq_true, beq_iff_eq] at h
      obtain ⟨rfl, rfl, rfl, rfl, rfl, -⟩ := h
      exact Or.inr (Or.inr (Or.inr (Or.inr (Or.inr rfl))))
    | cons f rest2 =>
      simp only [isPre, Bool.and_eq_true, beq_iff_eq] at h
      obtain ⟨-, -, -, -, -, hf, -⟩ := h
      have := halpha f (by simp)
      rw [hf] at this
      exact absurd this (by decide)

/-- The keyword scan never fires inside a run of digits followed by a
space. -/
theorem wwGo_digit_run {kw : Str} {k0 : Char} {krest : List Char}
    (hkw : kw = k0 :: krest) (h0 : isAlphaC k0 = true) :
    ∀ (ds : List Char), (∀ c ∈ ds, isDigitC c = true) → ∀ prev,
      wwGo kw prev (ds ++ [' ']) = false := by
  intro ds
  induction ds with
  | nil =>
    intro _ prev
    refine wwGo_cons_false (wwAt_false_of_not_pre ?_) rfl
    rw [hkw]
    show (k0 == ' ' && isPre krest []) = false
    rw [beq_false_of_pred isAlphaC h0 (by decide)]
    rfl
  | cons d ds' ih =>
    intro hds prev
    rw [List.cons_append]
    refine wwGo_cons_false (wwAt_false_of_not_pre ?_)
      (ih (fun c hc => hds c (List.mem_cons_of_mem _ hc)) (some d))
    rw [hkw]
    show (k0 == d && isPre krest (ds' ++ [' '])) = false
    rw [beq_false_of_pred isAlphaC h0 (digit_not_alpha (hds d (List.mem_cons_self _ _)))]
    rfl

/-- The keyword scan finds nothing in the appended `\nlimit {digits} `
block. -/
theorem wwGo_limit_block {kw : Str} {k0 : Char} {krest : List Char}
    (hkw : kw = k0 :: krest) (halpha : ∀ c ∈ kw, isAlphaC c = true)
    (hnp : kw ≠ ['l'] ∧ kw ≠ str "li" ∧ kw ≠ str "lim" ∧ kw ≠ str "limi" ∧
      kw ≠ str "limit")
    {ds : List Char} (hds : ∀ c ∈ ds, isDigitC c = true) :
    ∀ prev, wwGo kw prev
      ('\n' :: 'l' :: 'i' :: 'm' :: 'i' :: 't' :: ' ' :: (ds ++ [' '])) = false := by
  intro prev
  have h0 : isAlphaC k0 = true := halpha k0 (hkw ▸ List.mem_cons_self _ _)
  refine wwGo_cons_false (wwAt_false_of_not_pre ?_) ?_
  · rw [hkw]
    show (k0 == '\n' && isPre krest _) = false
    rw [beq_false_of_pred isAlphaC h0 (by decide)]
    rfl
  refine wwGo_cons_false ?_ ?_
  · by_cases hpre : isPre kw ('l' :: 'i' :: 'm' :: 'i' :: 't' :: ' ' :: (ds ++ [' '])) = true
    · exact absurd (alpha_isPre_limit halpha hpre) (by
        rintro (h | h | h | h | h | h)
        · rw [hkw] at h; simp at h
        · exact hnp.1 h
        · exact hnp.2.1 h
        · exact hnp.2.2.1 h
        · exact hnp.2.2.2.1 h
        · exact hnp.2.2.2.2 h)
    · exact wwAt_false_of_not_pre (Bool.eq_false_iff.mpr hpre)
  refine wwGo_cons_false (wwAt_false_of_prev (by decide)) ?_
  refine wwGo_cons_false (wwAt_false_of_prev (by decide)) ?_
  refine wwGo_cons_false (wwAt_false_of_prev (by decide)) ?_
  refine wwGo_cons_false (wwAt_false_of_prev (by decide)) ?_
  refine wwGo_cons_false (wwAt_false_of_prev (by decide)) ?_
  exact wwGo_digit_run hkw h0 ds hds (some ' ')

/-- If a whole-word match fails with a space appended, it also fails with
the newline block appended instead. -/
theorem wwAt_mono {kw : Str} (halpha : ∀ c ∈ kw, isAlphaC c = true)
    (hkw : kw ≠ []) (S : List Char) {prev : Option Char} {R : List Char}
    (h : wwAt kw prev (S ++ [' ']) = false) :
    wwAt kw prev (S ++ '\n' :: R) = false := by
  by_cases hp : prevWordB prev = true
  · exact wwAt_false_of_prev hp
  by_cases hlen : kw.length ≤ S.length
  · have hpre2 : isPre kw (S ++ '\n' :: R) = isPre kw S := isPre_append_of_le hlen _
    have hpre1 : isPre kw (S ++ [' ']) = isPre kw S := isPre_append_of_le hlen _
    by_cases hiP : isPre kw S = true
    · cases hdrop : S.drop kw.length with
      | nil =>
        have hd1 : (S ++ [' ']).drop kw.length = [' '] := by
          rw [List.drop_append_of_le_length hlen, hdrop]
          rfl
        have : wwAt kw prev (S ++ [' ']) = true := by
          simp [wwAt, hp, hpre1, hiP, hd1, isWordC, isAlphaC, isUpperC, isLowerC,
            isDigitC]
        rw [this] at h
        exact Bool.noConfusion h
      | cons c cs =>
        have hd1 : (S ++ [' ']).drop kw.length = c :: (cs ++ [' ']) := by
          rw [List.drop_append_of_le_length hlen, hdrop]
          rfl
        have hd2 : (S ++ '\n' :: R).drop kw.length = c :: (cs ++ '\n' :: R) := by
          rw [List.drop_append_of_le_length hlen, hdrop]
          rfl
        by_cases hc : isWordC c = true
        · exact wwAt_false_of_boundary hd2 hc
        · have : wwAt kw prev (S ++ [' ']) = true := by
            simp [wwAt, hp, hpre1, hiP, hd1, Bool.eq_false_iff.mpr hc]
          rw [this] at h
          exact Bool.noConfusion h
    · exact wwAt_false_of_not_pre (by rw [hpre2]; exact Bool.eq_false_iff.mpr hiP)
  · exact wwAt_false_of_not_pre (isPre_overrun (by decide) halpha (by omega) R)

/-- Extending the keyword scan from the padded old text to the text with the
appended `LIMIT` block preserves the absence of matches. -/
theorem wwGo_mono {kw : Str} (halpha : ∀ c ∈ kw, isAlphaC c = true)
    (hkw : kw ≠ []) {R : List Char}
    (hbase : ∀ prev, wwGo kw prev ('\n' :: R) = false) :
    ∀ (P : List Char) (prev : Option Char),
      wwGo kw prev (P ++ [' ']) = false → wwGo kw prev (P ++ '\n' :: R) = false := by
  intro P
  induction P with
  | nil => intro prev _; exact hbase prev
  | cons c P' ih =>
    intro prev h
    rw [List.cons_append] at h
    rw [List.cons_append]
    rw [wwGo] at h
    obtain ⟨ha, hb⟩ := Bool.or_eq_false_iff.mp h
    exact wwGo_cons_false (wwAt_mono halpha hkw (c :: P') ha) (ih (some c) hb)

theorem charAt_map_of_getElem (f : Char → Char) {l : List Char} {i : Nat} {c : Char}
    (h : l[i]? = some c) : charAt (l.map f) i = f c := by
  simp [charAt, List.getElem?_map, h]

theorem drop_takeWhile_length (p : Char → Bool) : ∀ L : List Char,
    L.drop (L.takeWhile p).length = L.dropWhile p
  | [] => rfl
  | a :: L => by
    by_cases hpa : p a = true
    · rw [List.takeWhile_cons_of_pos hpa, List.dropWhile_cons_of_pos hpa,
        List.length_cons, List.drop_succ_cons]
      exact drop_takeWhile_length p L
    · rw [List.takeWhile_cons_of_neg hpa, List.dropWhile_cons_of_neg hpa]
      rfl

/-- The limit pattern never matches at a newline. -/
theorem tryLimitAt_newline (prev : Option Char) (B : List Char) :
    tryLimitAt prev ('\n' :: B) = none := by
  unfold tryLimitAt
  by_cases hp : prevWordB prev = true
  · rw [if_pos hp]
  · have hne : lowerStr (('\n' :: B).take 5) ≠ str "limit" := by
      intro hEq
      have h0 := congrArg (fun l => charAt l 0) hEq
      simp only [lowerStr, List.take_succ_cons, List.map_cons] at h0
      rw [charAt_cons_zero] at h0
      exact absurd h0 (by decide)
    rw [if_neg hp, if_pos hne]

/-- If the limit pattern fails at a position of the original text, it still
fails there after appending a block headed by a newline and a
non-space non-digit character. -/
theorem tryLimitAt_mono {b : Char} (hbs : isSpaceC b = false) (hbd : isDigitC b = false)
    (B2 : List Char) (prev : Option Char) (S : List Char)
    (h : tryLimitAt prev S = none) :
    tryLimitAt prev (S ++ '\n' :: b :: B2) = none := by
  unfold tryLimitAt at h ⊢
  by_cases hp : prevWordB prev = true
  · rw [if_pos hp]
  rw [if_neg hp] at h ⊢
  by_cases hlow : lowerStr ((S ++ '\n' :: b :: B2).take 5) ≠ str "limit"
  · rw [if_pos hlow]
  push_neg at hlow
  have hS5 : 5 ≤ S.length := by
    by_contra hlt
    push_neg at hlt
    have hidx : (S ++ '\n' :: b :: B2)[S.length]? = some '\n' := by
      rw [List.getElem?_append_right (le_refl _)]
      simp
    have hidx2 : ((S ++ '\n' :: b :: B2).take 5)[S.length]? = some '\n' := by
      rw [List.getElem?_take]
      rw [if_pos hlt]
      exact hidx
    have h0 := congrArg (fun l => charAt l S.length) hlow
    simp only [lowerStr] at h0
    rw [charAt_map_of_getElem lowerC hidx2] at h0
    have h5 : S.length = 0 ∨ S.length = 1 ∨ S.length = 2 ∨ S.length = 3 ∨
        S.length = 4 := by omega
    rcases h5 with h5 | h5 | h5 | h5 | h5 <;> rw [h5] at h0 <;> exact absurd h0 (by decide)
  rw [List.take_append_of_le_length hS5] at hlow
  rw [List.take_append_of_le_length hS5, List.drop_append_of_le_length hS5]
  rw [if_neg (not_not_intro hlow)] at h ⊢
  cases ha : S.drop 5 with
  | nil =>
    rw [List.nil_append]
    have hw : ('\n' :: b :: B2).takeWhile isSpaceC = ['\n'] := by
      rw [List.takeWhile_cons_of_pos (show isSpaceC '\n' = true by decide),
        List.takeWhile_cons_of_neg (show ¬ (isSpaceC b = true) by simp [hbs])]
    have hr : ('\n' :: b :: B2).dropWhile isSpaceC = b :: B2 := by
      rw [List.dropWhile_cons_of_pos (show isSpaceC '\n' = true by decide),
        List.dropWhile_cons_of_neg (show ¬ (isSpaceC b = true) by simp [hbs])]
    rw [hw, hr]
    rw [if_neg (show ¬ ((['\n'] : List Char).length = 0) by simp)]
    rw [List.takeWhile_cons_of_neg (show ¬ (isDigitC b = true) by simp [hbd])]
    rw [if_pos (show (([] : List Char)).length = 0 from rfl)]
  | cons c rest =>
    rw [ha] at h
    by_cases hc : isSpaceC c = true
    case neg =>
      rw [List.cons_append, List.takeWhile_cons_of_neg hc]
      rw [if_pos (show (([] : List Char)).length = 0 from rfl)]
    case pos =>
      by_cases hrnil : (c :: rest).dropWhile isSpaceC = []
      · have hall : ∀ x ∈ c :: rest, isSpaceC x = true := List.dropWhile_eq_nil_iff.mp hrnil
        have hw : ((c :: rest) ++ '\n' :: b :: B2).takeWhile isSpaceC
            = (c :: rest) ++ ['\n'] := by
          rw [takeWhile_append_all hall]
          rw [List.takeWhile_cons_of_pos (show isSpaceC '\n' = true by decide),
            List.takeWhile_cons_of_neg (show ¬ (isSpaceC b = true) by simp [hbs])]
        have hr2 : ((c :: rest) ++ '\n' :: b :: B2).dropWhile isSpaceC = b :: B2 := by
          rw [dropWhile_append_all hall]
          rw [List.dropWhile_cons_of_pos (show isSpaceC '\n' = true by decide),
            List.dropWhile_cons_of_neg (show ¬ (isSpaceC b = true) by simp [hbs])]
        rw [hw, hr2]
        rw [if_neg (show ¬ (((c :: rest) ++ ['\n']).length = 0) by simp)]
        rw [List.takeWhile_cons_of_neg (show ¬ (isDigitC b = true) by simp [hbd])]
        rw [if_pos (show (([] : List Char)).length = 0 from rfl)]
      · have hw2 : ((c :: rest) ++ '\n' :: b :: B2).takeWhile isSpaceC
            = (c :: rest).takeWhile isSpaceC := takeWhile_append_ne hrnil
        have hr3 : ((c :: rest) ++ '\n' :: b :: B2).dropWhile isSpaceC
            = (c :: rest).dropWhile isSpaceC ++ '\n' :: b :: B2 := dropWhile_append_ne hrnil
        rw [hw2, hr3]
        have hwne : ¬ (((c :: rest).takeWhile isSpaceC).length = 0) := by
          rw [List.takeWhile_cons_of_pos hc]
          simp
        rw [if_neg hwne] at h ⊢
        obtain ⟨rc, rrest, hrc⟩ : ∃ rc rrest, (c :: rest).dropWhile isSpaceC = rc :: rrest := by
          cases hx : (c :: rest).dropWhile isSpaceC with
          | nil => exact absurd hx hrnil
          | cons u v => exact ⟨u, v, rfl⟩
        rw [hrc] at h ⊢
        by_cases hdd : (rc :: rrest).dropWhile isDigitC = []
        · exfalso
          have hdall : ∀ x ∈ rc :: rrest, isDigitC x = true := List.dropWhile_eq_nil_iff.mp hdd
          rw [takeWhile_all hdall] at h
          rw [if_neg (show ¬ ((rc :: rrest).length = 0) by simp)] at h
          rw [List.drop_length] at h
          simp at h
        · have hd2 : ((rc :: rrest) ++ '\n' :: b :: B2).takeWhile isDigitC
              = (rc :: rrest).takeWhile isDigitC := takeWhile_append_ne hdd
          rw [hd2]
          by_cases hdnil : ((rc :: rrest).takeWhile isDigitC).length = 0
          · rw [if_pos hdnil]
          · rw [if_neg hdnil] at h ⊢
            have hdlen : (rc :: rrest).drop ((rc :: rrest).takeWhile isDigitC).length
                = (rc :: rrest).dropWhile isDigitC :=
              drop_takeWhile_length isDigitC (rc :: rrest)
            obtain ⟨u, urest, hu⟩ : ∃ u urest,
                (rc :: rrest).dropWhile isDigitC = u :: urest := by
              cases hx : (rc :: rrest).dropWhile isDigitC with
              | nil => exact absurd hx hdd
              | cons x y => exact ⟨x, y, rfl⟩
            rw [hdlen, hu] at h
            have hwu : isWordC u = true := by
              by_contra hX
              change (if isWordC u then none
                  else some (evalDigits ((rc :: rrest).takeWhile isDigitC))) = none at h
              rw [if_neg hX] at h
              simp at h
            have htl : ((rc :: rrest).takeWhile isDigitC).length ≤ (rc :: rrest).length :=
              (List.takeWhile_sublist _).length_le
            have hgen : ((rc :: rrest) ++ '\n' :: b :: B2).drop
                ((rc :: rrest).takeWhile isDigitC).length
                = u :: (urest ++ '\n' :: b :: B2) := by
              rw [List.drop_append_of_le_length htl, hdlen, hu, List.cons_append]
            rw [hgen]
            change (if isWordC u then none
                else some (evalDigits ((rc :: rrest).takeWhile isDigitC))) = none
            rw [if_pos hwu]

theorem lowerC_digit {c : Char} (h : isDigitC c = true) : lowerC c = c := by
  have hU : ¬ (isUpperC c = true) := by
    intro hU
    simp only [isDigitC, Bool.and_eq_true, decide_eq_true_eq] at h
    simp only [isUpperC, Bool.and_eq_true, decide_eq_true_eq] at hU
    omega
  rw [lowerC, if_neg hU]

theorem map_id_of_digits : ∀ l : List Char, (∀ c ∈ l, isDigitC c = true) →
    l.map lowerC = l
  | [], _ => rfl
  | c :: l, h => by
    rw [List.map_cons, lowerC_digit (h c (List.mem_cons_self _ _)),
      map_id_of_digits l (fun x hx => h x (List.mem_cons_of_mem _ hx))]

/-- The appended `LIMIT {n}` clause itself matches the limit pattern with the
original value. -/
theorem tryLimitAt_block (n : Nat) (prev : Option Char) (hp : prevWordB prev = false) :
    tryLimitAt prev (str "LIMIT " ++ natDigits n) = some n := by
  obtain ⟨d0, drest, hds⟩ : ∃ d0 drest, natDigits n = d0 :: drest := by
    cases hx : natDigits n with
    | nil => exact absurd hx (natDigits_ne_nil n)
    | cons a b => exact ⟨a, b, rfl⟩
  have hd0 : isDigitC d0 = true :=
    natDigits_digits n d0 (by rw [hds]; exact List.mem_cons_self _ _)
  have hS : (str "LIMIT " ++ natDigits n : List Char)
      = 'L' :: 'I' :: 'M' :: 'I' :: 'T' :: ' ' :: natDigits n := rfl
  unfold tryLimitAt
  rw [hS]
  have htake : ('L' :: 'I' :: 'M' :: 'I' :: 'T' :: ' ' :: natDigits n).take 5
      = ['L', 'I', 'M', 'I', 'T'] := rfl
  have hdrop : ('L' :: 'I' :: 'M' :: 'I' :: 'T' :: ' ' :: natDigits n).drop 5
      = ' ' :: natDigits n := rfl
  have hlow : ¬ (lowerStr (('L' :: 'I' :: 'M' :: 'I' :: 'T' :: ' ' :: natDigits n).take 5)
      ≠ str "limit") := by
    rw [htake]
    decide
  have hw : (' ' :: natDigits n).takeWhile isSpaceC = [' '] := by
    rw [hds, List.takeWhile_cons_of_pos (show isSpaceC ' ' = true by decide),
      List.takeWhile_cons_of_neg (show ¬ (isSpaceC d0 = true) by
        simp [digit_not_space hd0])]
  have hr : (' ' :: natDigits n).dropWhile isSpaceC = natDigits n := by
    rw [List.dropWhile_cons_of_pos (show isSpaceC ' ' = true by decide), hds,
      List.dropWhile_cons_of_neg (show ¬ (isSpaceC d0 = true) by
        simp [digit_not_space hd0])]
  have hdtake : (natDigits n).takeWhile isDigitC = natDigits n :=
    takeWhile_all (natDigits_digits n)
  rw [if_neg (show ¬ (prevWordB prev = true) by simp [hp]), if_neg hlow, hdrop, hw, hr,
    hdtake]
  rw [if_neg (show ¬ (([' '] : List Char).length = 0) by simp)]
  rw [if_neg (show ¬ ((natDigits n).length = 0) by
    intro hZ
    exact natDigits_ne_nil n (List.eq_nil_of_length_eq_zero hZ))]
  rw [List.drop_length]
  change (some (evalDigits (natDigits n)) : Option Nat) = some n
  rw [evalDigits_natDigits]

/-- A failed limit scan over the original text extends over the appended
newline block: the scan continues into the block. -/
theorem limitGo_extend {b : Char} (hbs : isSpaceC b = false) (hbd : isDigitC b = false)
    (B2 : List Char) :
    ∀ (P : List Char) (prev : Option Char), limitGo prev P = none →
      limitGo prev (P ++ '\n' :: b :: B2) = limitGo (some '\n') (b :: B2) := by
  intro P
  induction P with
  | nil =>
    intro prev _
    rw [List.nil_append]
    have htry := tryLimitAt_newline prev (b :: B2)
    simp only [limitGo, htry]
  | cons c P2 ih =>
    intro prev h
    cases htry : tryLimitAt prev (c :: P2) with
    | some v =>
      exfalso
      simp [limitGo, htry] at h
    | none =>
      have h2 : limitGo (some c) P2 = none := by
        simp only [limitGo, htry] at h
        exact h
      have hm := tryLimitAt_mono hbs hbd B2 prev (c :: P2) htry
      rw [List.cons_append]
      simp only [limitGo]
      rw [show tryLimitAt prev (c :: (P2 ++ '\n' :: b :: B2)) = none from hm]
      change limitGo (some c) (P2 ++ '\n' :: b :: B2) = _
      exact ih (some c) h2

/-- The limit search on the normalized output finds exactly the appended
default limit when the original cleaned text had none. -/
theorem limitSearch_extend (A : List Char) (n : Nat) (hA : limitGo none A = none) :
    limitSearch (A ++ '\n' :: (str "LIMIT " ++ natDigits n)) = some n := by
  rw [limitSearch]
  rw [show ('\n' :: (str "LIMIT " ++ natDigits n) : List Char)
      = '\n' :: 'L' :: ('I' :: 'M' :: 'I' :: 'T' :: ' ' :: natDigits n) from rfl]
  rw [limitGo_extend (show isSpaceC 'L' = false by decide)
    (show isDigitC 'L' = false by decide) _ A none hA]
  have hblock : tryLimitAt (some '\n')
      ('L' :: 'I' :: 'M' :: 'I' :: 'T' :: ' ' :: natDigits n) = some n :=
    tryLimitAt_block n (some '\n') (by decide)
  simp only [limitGo, hblock]

/-- Lowering and padding the normalized output splits into the padded old
text and the lowered limit block. -/
theorem paddedLower_extend (A : List Char) (n : Nat) :
    paddedLower (A ++ '\n' :: (str "LIMIT " ++ natDigits n))
      = (' ' :: lowerStr A) ++
        '\n' :: 'l' :: 'i' :: 'm' :: 'i' :: 't' :: ' ' :: (natDigits n ++ [' ']) := by
  rw [paddedLower]
  simp only [lowerStr, List.map_append, List.map_cons]
  rw [show (str "LIMIT ").map lowerC = str "limit " by decide]
  rw [map_id_of_digits (natDigits n) (natDigits_digits n)]
  rw [show lowerC '\n' = '\n' from rfl]
  rw [show (str "limit " : List Char) = 'l' :: 'i' :: 'm' :: 'i' :: 't' :: [' '] from rfl]
  simp only [List.cons_append, List.append_assoc, List.nil_append]

/-- No forbidden keyword appears as a whole word in the normalized output
with the appended limit clause, given none appeared in the cleaned text. -/
theorem keywords_none_extend (A : List Char) (n : Nat)
    (hA : forbiddenKeywords.find? (fun kw => hasWholeWord kw (paddedLower A)) = none) :
    forbiddenKeywords.find? (fun kw =>
      hasWholeWord kw (paddedLower (A ++ '\n' :: (str "LIMIT " ++ natDigits n))))
      = none := by
  rw [List.find?_eq_none] at hA ⊢
  intro kw hkw
  have hprops : (kw ≠ [] ∧ ∀ c ∈ kw, isAlphaC c = true) ∧
      (kw ≠ ['l'] ∧ kw ≠ str "li" ∧ kw ≠ str "lim" ∧ kw ≠ str "limi" ∧
        kw ≠ str "limit") := by
    have hall : ∀ kw ∈ forbiddenKeywords, (kw ≠ [] ∧ ∀ c ∈ kw, isAlphaC c = true) ∧
        (kw ≠ ['l'] ∧ kw ≠ str "li" ∧ kw ≠ str "lim" ∧ kw ≠ str "limi" ∧
          kw ≠ str "limit") := by decide
    exact hall kw hkw
  obtain ⟨⟨hne, halpha⟩, hnp⟩ := hprops
  obtain ⟨k0, krest, hk⟩ : ∃ k0 krest, kw = k0 :: krest := by
    cases hx : kw with
    | nil => exact absurd hx hne
    | cons a b => exact ⟨a, b, rfl⟩
  have hbase : ∀ prev, wwGo kw prev
      ('\n' :: 'l' :: 'i' :: 'm' :: 'i' :: 't' :: ' ' :: (natDigits n ++ [' '])) = false :=
    wwGo_limit_block hk halpha hnp (natDigits_digits n)
  have hAkw : hasWholeWord kw (paddedLower A) = false := by
    have hx := hA kw hkw
    simpa using hx
  intro hcontra
  rw [paddedLower_extend] at hcontra
  have hres : wwGo kw none ((' ' :: lowerStr A) ++
      '\n' :: 'l' :: 'i' :: 'm' :: 'i' :: 't' :: ' ' :: (natDigits n ++ [' '])) = false :=
    wwGo_mono halpha hne hbase (' ' :: lowerStr A) none hAkw
  have hc2 : wwGo kw none ((' ' :: lowerStr A) ++
      '\n' :: 'l' :: 'i' :: 'm' :: 'i' :: 't' :: ' ' :: (natDigits n ++ [' '])) = true :=
    hcontra
  rw [hres] at hc2
  exact Bool.noConfusion hc2

theorem dropWhile_idem (p : Char → Bool) (l : List Char) :
    (l.dropWhile p).dropWhile p = l.dropWhile p := by
  induction l with
  | nil => rfl
  | cons a l ih =>
    by_cases hpa : p a = true
    · rw [List.dropWhile_cons_of_pos hpa]
      exact ih
    · rw [List.dropWhile_cons_of_neg hpa, List.dropWhile_cons_of_neg hpa]

theorem dropWhile_eq_self_of_prefix {p : Char → Bool} {l m : List Char}
    (h : l.dropWhile p = l) (hm : List.IsPrefix m l) : m.dropWhile p = m := by
  cases m with
  | nil => rfl
  | cons a as =>
    obtain ⟨rest, hrest⟩ := hm
    have hpa : p a = false := by
      cases hpa : p a with
      | false => rfl
      | true =>
        exfalso
        have hl : l = a :: (as ++ rest) := by rw [← hrest]; rfl
        rw [hl, List.dropWhile_cons_of_pos hpa] at h
        have hlen := congrArg List.length h
        have hle : (List.dropWhile p (as ++ rest)).length ≤ (as ++ rest).length :=
          (List.dropWhile_sublist p).length_le
        simp only [List.length_cons] at hlen
        omega
    rw [List.dropWhile_cons_of_neg (by simp [hpa])]

/-- The cleaned SQL text starts with a non-space character (or is empty). -/
theorem cleanse_dropWhile (s : Str) : (cleanse s).dropWhile isSpaceC = cleanse s := by
  have h1 : (wsStripL (stripComments s)).dropWhile isSpaceC
      = wsStripL (stripComments s) := dropWhile_idem isSpaceC (stripComments s)
  have h2 : List.IsPrefix (wsStrip (stripComments s)) (wsStripL (stripComments s)) := by
    rw [wsStrip, wsStripR]
    have hsuf : List.IsSuffix ((wsStripL (stripComments s)).reverse.dropWhile isSpaceC)
        ((wsStripL (stripComments s)).reverse) := List.dropWhile_suffix isSpaceC
    have hpre := hsuf.reverse
    rwa [List.reverse_reverse] at hpre
  have h3 : List.IsPrefix (cleanse s) (wsStrip (stripComments s)) := by
    rw [cleanse, rstripSemi]
    have hsuf : List.IsSuffix ((wsStrip (stripComments s)).reverse.dropWhile (· == ';'))
        ((wsStrip (stripComments s)).reverse) := List.dropWhile_suffix _
    have hpre := hsuf.reverse
    rwa [List.reverse_reverse] at hpre
  exact dropWhile_eq_self_of_prefix h1 (h3.trans h2)

/-- The first token of the output with the appended clause is the first
token of the cleaned text. -/
theorem firstTokenOf_append {A B : List Char} (hne : A ≠ [])
    (hhead : A.dropWhile isSpaceC = A)
    (hb : B.takeWhile (fun c => !isSpaceC c) = []) :
    firstTokenOf (A ++ B) = firstTokenOf A := by
  unfold firstTokenOf
  rw [List.dropWhile_append, hhead]
  rw [if_neg (by simpa [List.isEmpty_iff] using hne)]
  by_cases hAt : (A.takeWhile (fun c => !isSpaceC c)).length = A.length
  · rw [List.takeWhile_append, if_pos hAt, hb, List.append_nil]
    exact ((List.takeWhile_prefix _).eq_of_length hAt).symm
  · rw [List.takeWhile_append, if_neg hAt]

/-- C10 (amended): the guardrail is idempotent on accepted outputs whose
text survives another cleaning pass unchanged: if validation accepts `s`
with output `t`, `t` is clean (`cleanse t = t`), `t` fits the length bound,
and the default limit does not exceed the maximum limit, then validating
`t` again succeeds and returns `t` unchanged.  The extra hypotheses are
necessary: `c10_counterexample` shows an accepted input whose appended
limit clause recombines with the original text into a line comment, so the
second validation returns a different string. -/
theorem c10_revalidation (s t : Str) (c : SqlGuardrailConfig)
    (hok : validate_and_normalize_sql s c = .ok t)
    (hclean : cleanse t = t)
    (hlen : t.length ≤ c.max_sql_length)
    (hdl : c.default_limit ≤ c.max_limit) :
    validate_and_normalize_sql t c = .ok t := by
  unfold validate_and_normalize_sql at hok
  by_cases h1 : c.max_sql_length < s.length
  · rw [if_pos h1] at hok
    exact absurd hok (by simp)
  rw [if_neg h1] at hok
  by_cases h2 : cleanse s = []
  · rw [if_pos h2] at hok
    exact absurd hok (by simp)
  rw [if_neg h2] at hok
  by_cases h3 : ';' ∈ cleanse s
  · rw [if_pos h3] at hok
    exact absurd hok (by simp)
  rw [if_neg h3] at hok
  by_cases h4 : lowerStr (firstTokenOf (cleanse s)) ≠ str "select" ∧
      lowerStr (firstTokenOf (cleanse s)) ≠ str "with"
  · rw [if_pos h4] at hok
    exact absurd hok (by simp)
  rw [if_neg h4] at hok
  cases hfind : forbiddenKeywords.find?
      (fun kw => hasWholeWord kw (paddedLower (cleanse s))) with
  | some kw =>
    rw [hfind] at hok
    simp at hok
  | none =>
    rw [hfind] at hok
    cases hlim : limitSearch (cleanse s) with
    | some v =>
      rw [hlim] at hok
      change (if c.max_limit < v then
          (Except.error (str "Requested LIMIT " ++ natDigits v ++
            str " exceeds max_limit " ++ natDigits c.max_limit ++ str ".") : Except Str Str)
        else .ok (cleanse s)) = .ok t at hok
      by_cases h6 : c.max_limit < v
      · rw [if_pos h6] at hok
        simp at hok
      · rw [if_neg h6] at hok
        have ht : cleanse s = t := by simpa using hok
        rw [ht] at h2 h3 h4 hfind hlim
        unfold validate_and_normalize_sql
        rw [if_neg (show ¬ (c.max_sql_length < t.length) by omega)]
        rw [hclean]
        rw [if_neg h2, if_neg h3, if_neg h4]
        simp only [hfind, hlim, if_neg h6]
    | none =>
      rw [hlim] at hok
      change (Except.ok (cleanse s ++ '\n' :: (str "LIMIT " ++ natDigits c.default_limit))
          : Except Str Str) = .ok t at hok
      have ht : cleanse s ++ '\n' :: (str "LIMIT " ++ natDigits c.default_limit) = t := by
        simpa using hok
      unfold validate_and_normalize_sql
      rw [if_neg (show ¬ (c.max_sql_length < t.length) by omega)]
      rw [hclean]
      rw [if_neg (show ¬ (t = []) by rw [← ht]; simp)]
      rw [if_neg (show ¬ (';' ∈ t) by
        rw [← ht]
        intro hmem
        rcases List.mem_append.mp hmem with hm | hm
        · exact h3 hm
        · simp only [List.mem_cons, List.mem_append] at hm
          rcases hm with hm | hm | hm
          · exact absurd hm (by decide)
          · exact absurd hm (by decide)
          · exact absurd (natDigits_digits c.default_limit ';' hm) (by decide))]
      have hft : firstTokenOf t = firstTokenOf (cleanse s) := by
        rw [← ht]
        exact firstTokenOf_append h2 (cleanse_dropWhile s)
          (by simp [List.takeWhile_cons, isSpaceC])
      rw [if_neg (show ¬ (lowerStr (firstTokenOf t) ≠ str "select" ∧
          lowerStr (firstTokenOf t) ≠ str "with") by rw [hft]; exact h4)]
      have hfind2 : forbiddenKeywords.find?
          (fun kw => hasWholeWord kw (paddedLower t)) = none := by
        rw [← ht]
        exact keywords_none_extend (cleanse s) c.default_limit hfind
      have hlim2 : limitSearch t = some c.default_limit := by
        rw [← ht]
        exact limitSearch_extend (cleanse s) c.default_limit hlim
      simp only [hfind2, hlim2, if_neg (show ¬ (c.max_limit < c.default_limit) by omega)]

/-- Witness for `c10_revalidation` at a concrete accepted query. -/
theorem c10_witness :
    validate_and_normalize_sql (str "select 3 as z") defaultSqlConfig
      = .ok (str "select 3 as z\nLIMIT 50") ∧
    validate_and_normalize_sql (str "select 3 as z\nLIMIT 50") defaultSqlConfig
      = .ok (str "select 3 as z\nLIMIT 50") :=
  ⟨by decide,
   c10_revalidation (str "select 3 as z") (str "select 3 as z\nLIMIT 50")
     defaultSqlConfig (by decide) (by decide) (by decide) (by decide)⟩

/-! ### Fallback retrieval (`src/dash/personal/retrieval.py`, `vector.py`) -/

/-- A character matched by `_TOKEN_RE` (`[a-z0-9_]`) on lowered text. -/
def isTokC (c : Char) : Bool := isLowerC c || isDigitC c || c == '_'

/-- `_TOKEN_RE.findall`: maximal runs of token characters (`acc` holds the
current run in reverse). -/
def tokRunsGo : List Char → List Char → List Str
  | acc, [] => if acc.isEmpty then [] else [acc.reverse]
  | acc, c :: rest =>
    if isTokC c then tokRunsGo (c :: acc) rest
    else if acc.isEmpty then tokRunsGo [] rest
    else acc.reverse :: tokRunsGo [] rest

/-- `_STOP_WORDS` from `retrieval.py`. -/
def stopWords : List Str :=
  [str "a", str "an", str "and", str "are", str "for", str "from", str "how",
   str "in", str "is", str "it", str "of", str "on", str "or", str "the",
   str "to", str "what", str "which", str "who", str "with", str "when",
   str "where", str "show"]

/-- Python set construction: keep first occurrences, drop later duplicates. -/
def dedupGo : List Str → List Str → List Str
  | _, [] => []
  | seen, w :: ws =>
    if w ∈ seen then dedupGo seen ws else w :: dedupGo (w :: seen) ws

/-- `tokenize` from `retrieval.py`: token runs of the lowered text, keeping
those of length `> 1` that are not stop words, as a set (modelled as a
duplicate-free list). -/
def tokenize (text : Str) : List Str :=
  dedupGo []
    (((tokRunsGo [] (lowerStr text)).filter (fun w => decide (1 < w.length))).filter
      (fun w => decide (w ∉ stopWords)))

/-- `sum(x * y for x, y in zip(a, b))` for equal-length vectors. -/
def dotQ : List ℚ → List ℚ → ℚ
  | [], _ => 0
  | _, [] => 0
  | x :: xs, y :: ys => x * y + dotQ xs ys

/-- `cosine_similarity` from `vector.py`, with floats idealized as
rationals. -/
def cosine_similarity (a b : List ℚ) : ℚ :=
  if a = [] ∨ b = [] ∨ a.length ≠ b.length then 0
  else max (-1) (min 1 (dotQ a b))

/-- A candidate chunk row as loaded by `list_chunks`; `embedding` is the
parsed `embedding_json` and `recency` the value of the bounded signal
`_recency_boost(timestamp_utc)`, both opaque inputs to the scoring loop. -/
structure ChunkRow where
  chunk_id : Str
  source : Str
  text : Str
  embedding : Option (List ℚ)
  recency : ℚ
deriving DecidableEq

/-- The fields of `RetrievedChunk` used by the scoring pipeline. -/
structure RetrievedChunk where
  chunk_id : Str
  source : Str
  text : Str
  score : ℚ
deriving DecidableEq

/-- `overlap = len(question_tokens & chunk_tokens)`. -/
def rowOverlap (qtok : List Str) (row : ChunkRow) : Nat :=
  (qtok.filter (fun w => decide (w ∈ tokenize row.text))).length

/-- `vector_score`: cosine against the parsed embedding when present and
non-empty, else `0`. -/
def rowVec (qvec : List ℚ) (row : ChunkRow) : ℚ :=
  match row.embedding with
  | some e => if e = [] then 0 else cosine_similarity qvec e
  | none => 0

/-- `lexical = overlap / max(1, len(question_tokens)) if overlap > 0 else 0`. -/
def rowLex (qtok : List Str) (row : ChunkRow) : ℚ :=
  if 0 < rowOverlap qtok row then
    (rowOverlap qtok row : ℚ) / ((max 1 qtok.length : ℕ) : ℚ)
  else 0

/-- `density = overlap / max(1, len(chunk_tokens))`. -/
def rowDensity (qtok : List Str) (row : ChunkRow) : ℚ :=
  (rowOverlap qtok row : ℚ) / ((max 1 (tokenize row.text).length : ℕ) : ℚ)

/-- The weighted score before clamping. -/
def rowScore (qtok : List Str) (qvec : List ℚ) (row : ChunkRow) : ℚ :=
  55/100 * rowLex qtok row + 25/100 * max 0 (rowVec qvec row) +
    15/100 * rowDensity qtok row + 5/100 * row.recency

/-- One iteration of the `_python_retrieve` loop: `none` when the candidate
is skipped (no chunk tokens, or zero overlap with non-positive cosine). -/
def scoreRow (qtok : List Str) (qvec : List ℚ) (row : ChunkRow) :
    Option RetrievedChunk :=
  if tokenize row.text = [] then none
  else if rowOverlap qtok row = 0 ∧ rowVec qvec row ≤ 0 then none
  else some ⟨row.chunk_id, row.source, row.text,
    max 0 (min 1 (rowScore qtok qvec row))⟩

/-- The `scored` list accumulated over all candidates. -/
def scoreRows (qtok : List Str) (qvec : List ℚ) (rows : List ChunkRow) :
    List RetrievedChunk :=
  rows.filterMap (scoreRow qtok qvec)

/-- Stable insertion for descending sort: an element moves past only
strictly higher scores, so earlier elements stay first among equals
(Python `list.sort` is stable). -/
def insertDesc (x : RetrievedChunk) : List RetrievedChunk → List RetrievedChunk
  | [] => [x]
  | y :: ys => if x.score < y.score then y :: insertDesc x ys else x :: y :: ys

/-- `scored.sort(key=score, reverse=True)` as stable insertion sort. -/
def sortDesc : List RetrievedChunk → List RetrievedChunk
  | [] => []
  | x :: xs => insertDesc x (sortDesc xs)

/-- `_python_retrieve`: tokenize the question, score candidates, sort
descending, truncate to `top_k`. -/
def python_retrieve (question : Str) (qvec : List ℚ) (rows : List ChunkRow)
    (top_k : Nat) : List RetrievedChunk :=
  if tokenize question = [] then []
  else (sortDesc (scoreRows (tokenize question) qvec rows)).take top_k

theorem mem_insertDesc {x a : RetrievedChunk} {l : List RetrievedChunk} :
    a ∈ insertDesc x l ↔ a = x ∨ a ∈ l := by
  induction l with
  | nil => simp [insertDesc]
  | cons y ys ih =>
    rw [insertDesc]
    by_cases h : x.score < y.score
    · rw [if_pos h]
      simp only [List.mem_cons, ih]
      tauto
    · rw [if_neg h]
      simp only [List.mem_cons]

theorem insertDesc_perm (x : RetrievedChunk) (l : List RetrievedChunk) :
    List.Perm (insertDesc x l) (x :: l) := by
  induction l with
  | nil => exact List.Perm.refl _
  | cons y ys ih =>
    rw [insertDesc]
    by_cases h : x.score < y.score
    · rw [if_pos h]
      exact (ih.cons y).trans (List.Perm.swap x y ys)
    · rw [if_neg h]

theorem sortDesc_perm (l : List RetrievedChunk) : List.Perm (sortDesc l) l := by
  induction l with
  | nil => exact List.Perm.refl _
  | cons x xs ih =>
    rw [sortDesc]
    exact (insertDesc_perm x (sortDesc xs)).trans (ih.cons x)

theorem insertDesc_pairwise {x : RetrievedChunk} {l : List RetrievedChunk}
    (hl : l.Pairwise (fun a b => b.score ≤ a.score)) :
    (insertDesc x l).Pairwise (fun a b => b.score ≤ a.score) := by
  induction l with
  | nil => simp [insertDesc]
  | cons y ys ih =>
    rw [insertDesc]
    rw [List.pairwise_cons] at hl
    obtain ⟨hy, hys⟩ := hl
    by_cases h : x.score < y.score
    · rw [if_pos h]
      rw [List.pairwise_cons]
      constructor
      · intro a ha
        rcases mem_insertDesc.mp ha with rfl | ha
        · exact le_of_lt h
        · exact hy a ha
      · exact ih hys
    · rw [if_neg h]
      rw [List.pairwise_cons]
      constructor
      · intro a ha
        rcases List.mem_cons.mp ha with rfl | ha
        · exact le_of_not_lt h
        · exact le_trans (hy a ha) (le_of_not_lt h)
      · rw [List.pairwise_cons]
        exact ⟨hy, hys⟩

theorem sortDesc_pairwise (l : List RetrievedChunk) :
    (sortDesc l).Pairwise (fun a b => b.score ≤ a.score) := by
  induction l with
  | nil => simp [sortDesc]
  | cons x xs ih =>
    rw [sortDesc]
    exact insertDesc_pairwise ih

theorem scoreRow_bounds {qtok : List Str} {qvec : List ℚ} {row : ChunkRow}
    {ch : RetrievedChunk} (h : scoreRow qtok qvec row = some ch) :
    0 ≤ ch.score ∧ ch.score ≤ 1 := by
  unfold scoreRow at h
  by_cases h1 : tokenize row.text = []
  · rw [if_pos h1] at h
    exact absurd h (by simp)
  rw [if_neg h1] at h
  by_cases h2 : rowOverlap qtok row = 0 ∧ rowVec qvec row ≤ 0
  · rw [if_pos h2] at h
    exact absurd h (by simp)
  rw [if_neg h2] at h
  have hch := (Option.some.inj h).symm
  rw [hch]
  exact ⟨le_max_left 0 _, max_le (by norm_num) (min_le_left 1 _)⟩

/-- C5: when the question has tokens, the fallback retrieval equals the
survivor scores (weighted formula with clamping, skips embodied in
`scoreRow`) sorted descending and truncated to `top_k`; the result has at
most `top_k` entries, is sorted descending by score, consists of survivors
with scores clamped to `[0, 1]`, and the sort is a permutation of the
survivors. -/
theorem c5_retrieval (question : Str) (qvec : List ℚ) (rows : List ChunkRow)
    (top_k : Nat) (h : tokenize question ≠ []) :
    python_retrieve question qvec rows top_k
        = (sortDesc (scoreRows (tokenize question) qvec rows)).take top_k ∧
      (python_retrieve question qvec rows top_k).length ≤ top_k ∧
      (python_retrieve question qvec rows top_k).Pairwise
        (fun a b => b.score ≤ a.score) ∧
      (∀ ch ∈ python_retrieve question qvec rows top_k,
        ch ∈ scoreRows (tokenize question) qvec rows ∧
          0 ≤ ch.score ∧ ch.score ≤ 1) ∧
      List.Perm (sortDesc (scoreRows (tokenize question) qvec rows))
        (scoreRows (tokenize question) qvec rows) := by
  have hdef : python_retrieve question qvec rows top_k
      = (sortDesc (scoreRows (tokenize question) qvec rows)).take top_k := by
    rw [python_retrieve, if_neg h]
  refine ⟨hdef, ?_, ?_, ?_, sortDesc_perm _⟩
  · rw [hdef, List.length_take]
    exact min_le_left _ _
  · rw [hdef]
    exact (sortDesc_pairwise _).sublist (List.take_sublist _ _)
  · intro ch hch
    rw [hdef] at hch
    have hmem : ch ∈ sortDesc (scoreRows (tokenize question) qvec rows) :=
      List.mem_of_mem_take hch
    have hmem2 : ch ∈ scoreRows (tokenize question) qvec rows :=
      (sortDesc_perm _).mem_iff.mp hmem
    refine ⟨hmem2, ?_⟩
    rw [scoreRows, List.mem_filterMap] at hmem2
    obtain ⟨row, _, hrow⟩ := hmem2
    exact scoreRow_bounds hrow

/-- Witness for `c5_retrieval` at a concrete question. -/
theorem c5_witness :
    tokenize (str "total revenue") ≠ [] ∧
    (python_retrieve (str "total revenue") [] [] 1
        = (sortDesc (scoreRows (tokenize (str "total revenue")) [] [])).take 1 ∧
      (python_retrieve (str "total revenue") [] [] 1).length ≤ 1 ∧
      (python_retrieve (str "total revenue") [] [] 1).Pairwise
        (fun a b => b.score ≤ a.score) ∧
      (∀ ch ∈ python_retrieve (str "total revenue") [] [] 1,
        ch ∈ scoreRows (tokenize (str "total revenue")) [] [] ∧
          0 ≤ ch.score ∧ ch.score ≤ 1) ∧
      List.Perm (sortDesc (scoreRows (tokenize (str "total revenue")) [] []))
        (scoreRows (tokenize (str "total revenue")) [] [])) :=
  ⟨by decide, c5_retrieval (str "total revenue") [] [] 1 (by decide)⟩

/-! ### Memory manager (`src/dash/personal/memory.py`, `store.py`) -/

/-- A memory item row; `metadata_source` is `metadata.get("source", "")`. -/
structure MemItem where
  id : Nat
  kind : Str
  scope : Str
  statement : Str
  confidence : Int
  source : Str
  supersedes_id : Option Nat
  metadata_source : Str
  activation_state : Str
deriving DecidableEq

/-- `str(item.get("metadata", {}).get("source", "")).strip().lower()`. -/
def memSource (it : MemItem) : Str := lowerStr (wsStrip it.metadata_source)

/-- `overlap = len(q_tokens & item_tokens)`. -/
def memOverlap (qtok : List Str) (it : MemItem) : Nat :=
  (qtok.filter (fun w => decide (w ∈ tokenize it.statement))).length

/-- `score = overlap / max(1, len(q_tokens))`. -/
def memScore (qtok : List Str) (it : MemItem) : ℚ :=
  (memOverlap qtok it : ℚ) / ((max 1 qtok.length : ℕ) : ℚ)

/-- The loop filter of `select_for_question`: `true` when the item reaches
`scored.append`, `false` when it is skipped (low confidence, scope
mismatch, zero overlap, or low score). -/
def memKeep (qtok : List Str) (sf : List Str) (it : MemItem) : Bool :=
  if it.confidence < 60 then false
  else if it.scope = str "source-specific" ∧ sf ≠ [] ∧ memSource it ≠ [] ∧
      memSource it ∉ sf then false
  else if memOverlap qtok it = 0 then false
  else if memScore qtok it < 15/100 then false
  else true

/-- Stable insertion for the descending sort of `scored`. -/
def memInsert (qtok : List Str) (x : MemItem) : List MemItem → List MemItem
  | [] => [x]
  | y :: ys =>
    if memScore qtok x < memScore qtok y then y :: memInsert qtok x ys
    else x :: y :: ys

/-- `scored.sort(key=score, reverse=True)` as stable insertion sort. -/
def memSort (qtok : List Str) : List MemItem → List MemItem
  | [] => []
  | x :: xs => memInsert qtok x (memSort qtok xs)

/-- `select_for_question` over the active items (as returned by
`list_memory_items(active_only=True)`): `(used, skipped)`. -/
def select_for_question (items : List MemItem) (question : Str) (sf : List Str)
    (top_k : Nat) : List MemItem × List MemItem :=
  ((memSort (tokenize question)
      (items.filter (memKeep (tokenize question) sf))).take top_k,
   items.filter (fun it => !memKeep (tokenize question) sf it) ++
     (memSort (tokenize question)
       (items.filter (memKeep (tokenize question) sf))).drop top_k)

theorem memKeep_spec {qtok sf : List Str} {it : MemItem}
    (h : memKeep qtok sf it = true) :
    60 ≤ it.confidence ∧ memOverlap qtok it ≠ 0 ∧ 15/100 ≤ memScore qtok it := by
  unfold memKeep at h
  by_cases h1 : it.confidence < 60
  · rw [if_pos h1] at h
    exact absurd h (by simp)
  rw [if_neg h1] at h
  by_cases h2 : it.scope = str "source-specific" ∧ sf ≠ [] ∧ memSource it ≠ [] ∧
      memSource it ∉ sf
  · rw [if_pos h2] at h
    exact absurd h (by simp)
  rw [if_neg h2] at h
  by_cases h3 : memOverlap qtok it = 0
  · rw [if_pos h3] at h
    exact absurd h (by simp)
  rw [if_neg h3] at h
  by_cases h4 : memScore qtok it < 15/100
  · rw [if_pos h4] at h
    exact absurd h (by simp)
  exact ⟨by omega, h3, le_of_not_lt h4⟩

theorem mem_memInsert {qtok : List Str} {x a : MemItem} {l : List MemItem} :
    a ∈ memInsert qtok x l ↔ a = x ∨ a ∈ l := by
  induction l with
  | nil => simp [memInsert]
  | cons y ys ih =>
    rw [memInsert]
    by_cases h : memScore qtok x < memScore qtok y
    · rw [if_pos h]
      simp only [List.mem_cons, ih]
      tauto
    · rw [if_neg h]
      simp only [List.mem_cons]

theorem memInsert_perm (qtok : List Str) (x : MemItem) (l : List MemItem) :
    List.Perm (memInsert qtok x l) (x :: l) := by
  induction l with
  | nil => exact List.Perm.refl _
  | cons y ys ih =>
    rw [memInsert]
    by_cases h : memScore qtok x < memScore qtok y
    · rw [if_pos h]
      exact (ih.cons y).trans (List.Perm.swap x y ys)
    · rw [if_neg h]

theorem memSort_perm (qtok : List Str) (l : List MemItem) :
    List.Perm (memSort qtok l) l := by
  induction l with
  | nil => exact List.Perm.refl _
  | cons x xs ih =>
    rw [memSort]
    exact (memInsert_perm qtok x (memSort qtok xs)).trans (ih.cons x)

theorem memInsert_pairwise {qtok : List Str} {x : MemItem} {l : List MemItem}
    (hl : l.Pairwise (fun a b => memScore qtok b ≤ memScore qtok a)) :
    (memInsert qtok x l).Pairwise
      (fun a b => memScore qtok b ≤ memScore qtok a) := by
  induction l with
  | nil => simp [memInsert]
  | cons y ys ih =>
    rw [memInsert]
    rw [List.pairwise_cons] at hl
    obtain ⟨hy, hys⟩ := hl
    by_cases h : memScore qtok x < memScore qtok y
    · rw [if_pos h]
      rw [List.pairwise_cons]
      constructor
      · intro a ha
        rcases mem_memInsert.mp ha with rfl | ha
        · exact le_of_lt h
        · exact hy a ha
      · exact ih hys
    · rw [if_neg h]
      rw [List.pairwise_cons]
      constructor
      · intro a ha
        rcases List.mem_cons.mp ha with rfl | ha
        · exact le_of_not_lt h
        · exact le_trans (hy a ha) (le_of_not_lt h)
      · rw [List.pairwise_cons]
        exact ⟨hy, hys⟩

theorem memSort_pairwise (qtok : List Str) (l : List MemItem) :
    (memSort qtok l).Pairwise (fun a b => memScore qtok b ≤ memScore qtok a) := by
  induction l with
  | nil => simp [memSort]
  | cons x xs ih =>
    rw [memSort]
    exact memInsert_pairwise ih

/-- C7: every used item has confidence at least 60, nonzero overlap and
score at least 0.15; the used list is sorted descending by score and has at
most `top_k` entries; used and skipped together are a permutation of the
considered items; and if every item has confidence 59 nothing is used. -/
theorem c7_memory_selection (items : List MemItem) (question : Str) (sf : List Str)
    (top_k : Nat) :
    (∀ it ∈ (select_for_question items question sf top_k).1,
        60 ≤ it.confidence ∧ memOverlap (tokenize question) it ≠ 0 ∧
          15/100 ≤ memScore (tokenize question) it) ∧
    (select_for_question items question sf top_k).1.Pairwise
      (fun a b => memScore (tokenize question) b ≤ memScore (tokenize question) a) ∧
    (select_for_question items question sf top_k).1.length ≤ top_k ∧
    List.Perm ((select_for_question items question sf top_k).1 ++
      (select_for_question items question sf top_k).2) items ∧
    ((∀ it ∈ items, it.confidence = 59) →
      (select_for_question items question sf top_k).1 = []) := by
  refine ⟨?_, ?_, ?_, ?_, ?_⟩
  · intro it hit
    have hmem : it ∈ memSort (tokenize question)
        (items.filter (memKeep (tokenize question) sf)) :=
      List.mem_of_mem_take hit
    have hmem2 : it ∈ items.filter (memKeep (tokenize question) sf) :=
      (memSort_perm _ _).mem_iff.mp hmem
    exact memKeep_spec (List.mem_filter.mp hmem2).2
  · exact (memSort_pairwise _ _).sublist (List.take_sublist _ _)
  · rw [select_for_question]
    rw [List.length_take]
    exact min_le_left _ _
  · rw [select_for_question]
    refine List.Perm.trans (List.Perm.append_left _ List.perm_append_comm) ?_
    rw [← List.append_assoc, List.take_append_drop]
    exact ((memSort_perm _ _).append_right _).trans
      (List.filter_append_perm (memKeep (tokenize question) sf) items)
  · intro h59
    rw [select_for_question]
    have hfil : items.filter (memKeep (tokenize question) sf) = [] := by
      rw [List.filter_eq_nil_iff]
      intro it hit
      rw [memKeep, if_pos (show it.confidence < 60 by rw [h59 it hit]; norm_num)]
      simp
    rw [hfil]
    simp [memSort]

/-- A concrete all-items-at-confidence-59 store for the selection witness. -/
def item59 : MemItem :=
  ⟨1, str "preference", str "global", str "use metric units", 59, str "manual",
    none, [], str "active"⟩

/-- Witness for `c7_memory_selection`: one confidence-59 item is never used. -/
theorem c7_witness :
    (∀ it ∈ [item59], it.confidence = 59) ∧
    (select_for_question [item59] (str "total revenue") [] 4).1 = [] :=
  ⟨by decide,
   (c7_memory_selection [item59] (str "total revenue") [] 4).2.2.2.2 (by decide)⟩

/-- A memory candidate row. -/
structure MemCand where
  id : Nat
  kind : Str
  scope : Str
  title : Str
  learning : Str
  confidence : Int
  evidence_citation_ids : List Str
  status : Str
deriving DecidableEq

/-- A memory event row. -/
structure MemEvent where
  event : Str
  reason : Str
  memory_item_id : Option Nat
  memory_candidate_id : Option Nat
deriving DecidableEq

/-- The store tables touched by the memory manager; `items` is kept in
creation order and `nextItemId` is the autoincrement counter. -/
structure MemStore where
  candidates : List MemCand
  items : List MemItem
  events : List MemEvent
  nextItemId : Nat
deriving DecidableEq

/-- `get_memory_candidate`. -/
def getMemoryCandidate (st : MemStore) (cid : Nat) : Option MemCand :=
  st.candidates.find? (fun c => c.id == cid)

/-- `mark_memory_candidate`. -/
def markMemoryCandidate (st : MemStore) (cid : Nat) (status : Str) : MemStore :=
  { st with candidates := st.candidates.map (fun c =>
      if c.id = cid then { c with status := status } else c) }

/-- `create_memory_item`: appends the new row with id `nextItemId`. -/
def createMemoryItem (st : MemStore) (kind scope statement : Str)
    (confidence : Int) (source : Str) (supersedes_id : Option Nat)
    (metadata_source : Str) (activation_state : Str) : MemStore :=
  { st with
    items := st.items ++ [⟨st.nextItemId, kind, scope, statement, confidence,
      source, supersedes_id, metadata_source, activation_state⟩],
    nextItemId := st.nextItemId + 1 }

/-- `create_memory_event`. -/
def createMemoryEvent (st : MemStore) (event reason : Str)
    (memory_item_id memory_candidate_id : Option Nat) : MemStore :=
  { st with events := st.events ++ [⟨event, reason, memory_item_id,
      memory_candidate_id⟩] }

/-- `get_memory_item`. -/
def getMemoryItem (st : MemStore) (iid : Nat) : Option MemItem :=
  st.items.find? (fun it => it.id == iid)

/-- The row update of `update_memory_item` (supersedes only set when the
argument is not `None`). -/
def updItem (jid : Nat) (state : Str) (sup : Option Nat) (it : MemItem) : MemItem :=
  if it.id = jid then
    { it with
      activation_state := state
      supersedes_id := (match sup with | some s => some s | none => it.supersedes_id) }
  else it

/-- `update_memory_item` restricted to the fields the manager sets. -/
def updateMemoryItem (st : MemStore) (iid : Nat) (state : Str)
    (sup : Option Nat) : MemStore :=
  { st with items := st.items.map (updItem iid state sup) }

/-- `list_memory_items(active_only=True)` ordered by `created_at desc`:
the active rows in reverse creation order. -/
def listActiveDesc (st : MemStore) : List MemItem :=
  (st.items.filter (fun it => it.activation_state == str "active")).reverse

/-- The alternatives of `_NEGATION_RE`. -/
def negationWords : List Str :=
  [str "no", str "not", str "never", str "without", str "avoid"]

/-- `_NEGATION_RE.search` (IGNORECASE whole-word alternation). -/
def hasNegation (s : Str) : Bool :=
  negationWords.any (fun w => hasWholeWord w (lowerStr s))

/-- `len(a_tokens & b_tokens) / max(1, min(len(a_tokens), len(b_tokens)))`. -/
def conflictOverlap (a b : Str) : ℚ :=
  (((tokenize a).filter (fun w => decide (w ∈ tokenize b))).length : ℚ) /
    ((max 1 (min (tokenize a).length (tokenize b).length) : ℕ) : ℚ)

/-- `_is_conflicting` from `memory.py`. -/
def is_conflicting (a b : Str) : Bool :=
  if tokenize a = [] ∨ tokenize b = [] then false
  else if conflictOverlap a b < 1/2 then false
  else hasNegation a != hasNegation b

/-- The loop of `_demote_conflicts` over the snapshot of other active
items, with the early return when the new item itself is demoted. -/
def demoteGo (newItem : MemItem) : MemStore → List MemItem → MemStore × List Nat
  | st, [] => (st, [])
  | st, item :: rest =>
    if item.kind ≠ newItem.kind then demoteGo newItem st rest
    else if item.scope ≠ newItem.scope then demoteGo newItem st rest
    else if ¬ is_conflicting newItem.statement item.statement = true then
      demoteGo newItem st rest
    else if item.confidence ≤ newItem.confidence then
      match demoteGo newItem
          (createMemoryEvent
            (updateMemoryItem st item.id (str "stale") (some newItem.id))
            (str "auto_stale")
            (str "conflicts with stronger memory " ++ natDigits newItem.id)
            (some item.id) none) rest with
      | (st4, ds) => (st4, item.id :: ds)
    else
      (createMemoryEvent
        (updateMemoryItem st newItem.id (str "stale") (some item.id))
        (str "auto_stale")
        (str "conflicts with stronger memory " ++ natDigits item.id)
        (some newItem.id) none, [newItem.id])

/-- `_demote_conflicts`. -/
def demote_conflicts (st : MemStore) (new_item_id : Nat) : MemStore × List Nat :=
  match getMemoryItem st new_item_id with
  | none => (st, [])
  | some newItem =>
    demoteGo newItem st
      ((listActiveDesc st).filter (fun it => decide (it.id ≠ new_item_id)))

/-- The tail of `approve_candidate` after the new item and the approval
event exist: demote conflicts, then reload and return the item. -/
def approveFinish (st3 : MemStore) (item_id : Nat) :
    MemStore × Except Str (MemItem × List Nat) :=
  match demote_conflicts st3 item_id with
  | (st4, demoted) =>
    match getMemoryItem st4 item_id with
    | none => (st4, .error (str "Failed to load approved memory item " ++
        natDigits item_id))
    | some item => (st4, .ok (item, demoted))

/-- The store after marking the candidate approved, creating the item and
recording the approval event (the prefix of `approve_candidate` before the
conflict scan). -/
def approvedStore (st : MemStore) (cand : MemCand) (cid : Nat) : MemStore :=
  createMemoryEvent
    (createMemoryItem (markMemoryCandidate st cid (str "approved"))
      cand.kind cand.scope (wsStrip cand.learning) cand.confidence
      (str "candidate_approval") none [] (str "active"))
    (str "approved") (str "candidate approved by user")
    (some st.nextItemId) (some cid)

/-- The row created by `approve_candidate` (id is the autoincrement value). -/
def approvedItem (st : MemStore) (cand : MemCand) : MemItem :=
  ⟨st.nextItemId, cand.kind, cand.scope, wsStrip cand.learning, cand.confidence,
    str "candidate_approval", none, [], str "active"⟩

/-- `approve_candidate`, returning the final store together with the result
(`.error` carries the `PersonalStoreError` message).  The created item id
is `st.nextItemId` (marking the candidate does not touch the counter). -/
def approve_candidate (st : MemStore) (cid : Nat) :
    MemStore × Except Str (MemItem × List Nat) :=
  match getMemoryCandidate st cid with
  | none => (st, .error (str "Memory candidate " ++ natDigits cid ++
      str " not found"))
  | some cand =>
    if cand.evidence_citation_ids = [] then
      (st, .error (str "Memory candidate requires evidence citations before activation"))
    else
      approveFinish (approvedStore st cand cid) st.nextItemId

theorem updItem_id (jid : Nat) (state : Str) (sup : Option Nat) (it : MemItem) :
    (updItem jid state sup it).id = it.id := by
  unfold updItem
  split <;> rfl

theorem find_update_ne {iid jid : Nat} (h : iid ≠ jid) (state : Str)
    (sup : Option Nat) :
    ∀ l : List MemItem,
      (l.map (updItem jid state sup)).find? (fun it => it.id == iid)
        = l.find? (fun it => it.id == iid) := by
  intro l
  induction l with
  | nil => rfl
  | cons a l ih =>
    rw [List.map_cons]
    by_cases hpa : (a.id == iid) = true
    · have ha : a.id = iid := by simpa using hpa
      have hAne : ¬ a.id = jid := by rw [ha]; exact h
      rw [show updItem jid state sup a = a from by unfold updItem; rw [if_neg hAne]]
      simp only [List.find?, hpa]
    · have hfa : (a.id == iid) = false := Bool.eq_false_iff.mpr hpa
      have hfa2 : ((updItem jid state sup a).id == iid) = false := by
        rw [updItem_id]
        exact hfa
      simp only [List.find?, hfa, hfa2]
      exact ih

theorem find_update_self {jid : Nat} (state : Str) (sup : Option Nat) :
    ∀ (l : List MemItem) (x : MemItem),
      l.find? (fun it => it.id == jid) = some x →
      (l.map (updItem jid state sup)).find? (fun it => it.id == jid)
        = some (updItem jid state sup x) := by
  intro l
  induction l with
  | nil =>
    intro x hx
    exact absurd hx (by simp)
  | cons a l ih =>
    intro x hx
    by_cases hpa : (a.id == jid) = true
    · simp only [List.find?, hpa] at hx
      obtain rfl : a = x := Option.some.inj hx
      have hpu : ((updItem jid state sup a).id == jid) = true := by
        rw [updItem_id]
        exact hpa
      rw [List.map_cons]
      simp only [List.find?, hpu]
    · have hfa : (a.id == jid) = false := Bool.eq_false_iff.mpr hpa
      simp only [List.find?, hfa] at hx
      have hfu : ((updItem jid state sup a).id == jid) = false := by
        rw [updItem_id]
        exact hfa
      rw [List.map_cons]
      simp only [List.find?, hfu]
      exact ih x hx

theorem getMemoryItem_update_ne {st : MemStore} {iid jid : Nat} (h : iid ≠ jid)
    (state : Str) (sup : Option Nat) :
    getMemoryItem (updateMemoryItem st jid state sup) iid = getMemoryItem st iid :=
  find_update_ne h state sup st.items

theorem getMemoryItem_update_self {st : MemStore} {jid : Nat} {x : MemItem}
    (h : getMemoryItem st jid = some x) (state : Str) (sup : Option Nat) :
    getMemoryItem (updateMemoryItem st jid state sup) jid
      = some (updItem jid state sup x) :=
  find_update_self state sup st.items x h

theorem getMemoryItem_event (st : MemStore) (e r : Str) (mi mc : Option Nat)
    (iid : Nat) :
    getMemoryItem (createMemoryEvent st e r mi mc) iid = getMemoryItem st iid := rfl

theorem find_append_of_none {α : Type} {p : α → Bool} :
    ∀ {l₁ : List α}, l₁.find? p = none → ∀ l₂ : List α,
      (l₁ ++ l₂).find? p = l₂.find? p := by
  intro l₁
  induction l₁ with
  | nil =>
    intro _ l₂
    rfl
  | cons a l ih =>
    intro h l₂
    by_cases hpa : p a = true
    · rw [List.find?_cons_of_pos _ hpa] at h
      exact absurd h (by simp)
    · rw [List.find?_cons_of_neg _ hpa] at h
      rw [List.cons_append, List.find?_cons_of_neg _ hpa]
      exact ih h l₂

/-- Through the conflict scan, the new item is either untouched (and still
active) or demoted exactly when its id enters the demoted list, in which
case it is stale with a supersedes pointer. -/
theorem demoteGo_newItem (newItem : MemItem) :
    ∀ (l : List MemItem) (st : MemStore),
      (∀ x ∈ l, x.id ≠ newItem.id) →
      getMemoryItem st newItem.id = some newItem →
      ((newItem.id ∉ (demoteGo newItem st l).2 ∧
         getMemoryItem (demoteGo newItem st l).1 newItem.id = some newItem) ∨
       (newItem.id ∈ (demoteGo newItem st l).2 ∧
         (∃ sup, getMemoryItem (demoteGo newItem st l).1 newItem.id
           = some { newItem with
               activation_state := str "stale"
               supersedes_id := some sup }))) := by
  intro l
  induction l with
  | nil =>
    intro st _ hget
    left
    exact ⟨by simp [demoteGo], hget⟩
  | cons item rest ih =>
    intro st hids hget
    have hrest : ∀ x ∈ rest, x.id ≠ newItem.id :=
      fun x hx => hids x (List.mem_cons_of_mem _ hx)
    by_cases h1 : item.kind ≠ newItem.kind
    · have hstep : demoteGo newItem st (item :: rest) = demoteGo newItem st rest := by
        simp only [demoteGo]
        rw [if_pos h1]
      rw [hstep]
      exact ih st hrest hget
    by_cases h2 : item.scope ≠ newItem.scope
    · have hstep : demoteGo newItem st (item :: rest) = demoteGo newItem st rest := by
        simp only [demoteGo]
        rw [if_neg h1, if_pos h2]
      rw [hstep]
      exact ih st hrest hget
    by_cases h3 : ¬ is_conflicting newItem.statement item.statement = true
    · have hstep : demoteGo newItem st (item :: rest) = demoteGo newItem st rest := by
        simp only [demoteGo]
        rw [if_neg h1, if_neg h2, if_pos h3]
      rw [hstep]
      exact ih st hrest hget
    have hItemNe : newItem.id ≠ item.id := Ne.symm (hids item (List.mem_cons_self _ _))
    by_cases h4 : item.confidence ≤ newItem.confidence
    · have hget2 : getMemoryItem
          (createMemoryEvent
            (updateMemoryItem st item.id (str "stale") (some newItem.id))
            (str "auto_stale")
            (str "conflicts with stronger memory " ++ natDigits newItem.id)
            (some item.id) none) newItem.id = some newItem := by
        rw [getMemoryItem_event, getMemoryItem_update_ne hItemNe]
        exact hget
      have hrec := ih _ hrest hget2
      have hstep : demoteGo newItem st (item :: rest)
          = ((demoteGo newItem
              (createMemoryEvent
                (updateMemoryItem st item.id (str "stale") (some newItem.id))
                (str "auto_stale")
                (str "conflicts with stronger memory " ++ natDigits newItem.id)
                (some item.id) none) rest).1,
             item.id :: (demoteGo newItem
              (createMemoryEvent
                (updateMemoryItem st item.id (str "stale") (some newItem.id))
                (str "auto_stale")
                (str "conflicts with stronger memory " ++ natDigits newItem.id)
                (some item.id) none) rest).2) := by
        simp only [demoteGo]
        rw [if_neg h1, if_neg h2, if_neg h3, if_pos h4]
      rw [hstep]
      rcases hrec with ⟨hnot, hg⟩ | ⟨hin, sup, hg⟩
      · left
        constructor
        · intro hmem
          rcases List.mem_cons.mp hmem with heq | hmem2
          · exact hItemNe heq
          · exact hnot hmem2
        · exact hg
      · right
        exact ⟨List.mem_cons_of_mem _ hin, sup, hg⟩
    · have hstep : demoteGo newItem st (item :: rest)
          = (createMemoryEvent
              (updateMemoryItem st newItem.id (str "stale") (some item.id))
              (str "auto_stale")
              (str "conflicts with stronger memory " ++ natDigits item.id)
              (some newItem.id) none, [newItem.id]) := by
        simp only [demoteGo]
        rw [if_neg h1, if_neg h2, if_neg h3, if_neg h4]
      rw [hstep]
      right
      constructor
      · show newItem.id ∈ [newItem.id]
        simp
      · refine ⟨item.id, ?_⟩
        show getMemoryItem
          (createMemoryEvent
            (updateMemoryItem st newItem.id (str "stale") (some item.id))
            (str "auto_stale")
            (str "conflicts with stronger memory " ++ natDigits item.id)
            (some newItem.id) none) newItem.id = _
        rw [getMemoryItem_event, getMemoryItem_update_self hget (str "stale") (some item.id)]
        unfold updItem
        rw [if_pos rfl]

/-- C1 (amended): a successful approval requires non-empty evidence and
creates the item with id `nextItemId`; at return the item exists in the
store, and it is active unless the conflict scan demoted it (its id is in
the demoted list), in which case it is stale.  `c1_counterexample` shows
the demotion really happens, refuting the claim that the new item always
ends active. -/
theorem c1_approval (st : MemStore) (cid : Nat) (it : MemItem) (demoted : List Nat)
    (hwf : ∀ x ∈ st.items, x.id < st.nextItemId)
    (hok : (approve_candidate st cid).2 = .ok (it, demoted)) :
    (∃ cand, getMemoryCandidate st cid = some cand ∧
      cand.evidence_citation_ids ≠ []) ∧
    it.id = st.nextItemId ∧
    getMemoryItem (approve_candidate st cid).1 it.id = some it ∧
    ((it.id ∉ demoted ∧ it.activation_state = str "active") ∨
     (it.id ∈ demoted ∧ it.activation_state = str "stale")) := by
  cases hcand : getMemoryCandidate st cid with
  | none =>
    have hA : approve_candidate st cid = (st, .error (str "Memory candidate " ++
        natDigits cid ++ str " not found")) := by
      unfold approve_candidate
      split
      next heq =>
        rfl
      next cand2 heq =>
        rw [hcand] at heq
        exact absurd heq (by simp)
    rw [hA] at hok
    exact absurd hok (by simp)
  | some cand =>
    by_cases hev : cand.evidence_citation_ids = []
    · have hA : approve_candidate st cid = (st, .error
          (str "Memory candidate requires evidence citations before activation")) := by
        unfold approve_candidate
        split
        next heq =>
          rw [hcand] at heq
          exact absurd heq (by simp)
        next cand2 heq =>
          rw [hcand] at heq
          obtain rfl : cand = cand2 := Option.some.inj heq
          rw [if_pos hev]
      rw [hA] at hok
      exact absurd hok (by simp)
    · have hA : approve_candidate st cid
          = approveFinish (approvedStore st cand cid) st.nextItemId := by
        unfold approve_candidate
        split
        next heq =>
          rw [hcand] at heq
          exact absurd heq (by simp)
        next cand2 heq =>
          rw [hcand] at heq
          obtain rfl : cand = cand2 := Option.some.inj heq
          rw [if_neg hev]
      have hget3 : getMemoryItem (approvedStore st cand cid) st.nextItemId
          = some (approvedItem st cand) := by
        have hnone : st.items.find? (fun x => x.id == st.nextItemId) = none := by
          rw [List.find?_eq_none]
          intro x hx hbeq
          have hxid : x.id = st.nextItemId := by simpa using hbeq
          have := hwf x hx
          omega
        show (st.items ++ [approvedItem st cand]).find?
          (fun x => x.id == st.nextItemId) = some (approvedItem st cand)
        rw [find_append_of_none hnone]
        have hpt : ((approvedItem st cand).id == st.nextItemId) = true := by
          show (st.nextItemId == st.nextItemId) = true
          simp
        simp only [List.find?, hpt]
      have hLids : ∀ x ∈ (listActiveDesc (approvedStore st cand cid)).filter
          (fun x => decide (x.id ≠ st.nextItemId)), x.id ≠ (approvedItem st cand).id := by
        intro x hx
        have hq := (List.mem_filter.mp hx).2
        simpa using hq
      have hmain := demoteGo_newItem (approvedItem st cand)
        ((listActiveDesc (approvedStore st cand cid)).filter
          (fun x => decide (x.id ≠ st.nextItemId)))
        (approvedStore st cand cid) hLids hget3
      cases hpair : demote_conflicts (approvedStore st cand cid) st.nextItemId with
      | mk st4 ds =>
        have hAF : approveFinish (approvedStore st cand cid) st.nextItemId
            = match getMemoryItem st4 st.nextItemId with
              | none => (st4, .error (str "Failed to load approved memory item " ++
                  natDigits st.nextItemId))
              | some item => (st4, .ok (item, ds)) := by
          unfold approveFinish
          rw [hpair]
        have hdg : demoteGo (approvedItem st cand) (approvedStore st cand cid)
            ((listActiveDesc (approvedStore st cand cid)).filter
              (fun x => decide (x.id ≠ st.nextItemId))) = (st4, ds) := by
          rw [← hpair]
          unfold demote_conflicts
          rw [hget3]
        rw [hdg] at hmain
        rcases hmain with ⟨hnot, hg⟩ | ⟨hin, sup, hg⟩
        · have hg2 : getMemoryItem st4 st.nextItemId = some (approvedItem st cand) := hg
          rw [hA, hAF, hg2] at hok
          have hok2 : (Except.ok (approvedItem st cand, ds)
              : Except Str (MemItem × List Nat)) = .ok (it, demoted) := hok
          have hinj := Except.ok.inj hok2
          have h_it : approvedItem st cand = it := congrArg Prod.fst hinj
          have h_dem : ds = demoted := congrArg Prod.snd hinj
          subst h_it
          subst h_dem
          refine ⟨⟨cand, rfl, hev⟩, rfl, ?_, ?_⟩
          · rw [hA, hAF, hg2]
            exact hg2
          · left
            exact ⟨hnot, rfl⟩
        · have hg2 : getMemoryItem st4 st.nextItemId
              = some { approvedItem st cand with
                  activation_state := str "stale"
                  supersedes_id := some sup } := hg
          rw [hA, hAF, hg2] at hok
          have hok2 : (Except.ok ({ approvedItem st cand with
              activation_state := str "stale"
              supersedes_id := some sup }, ds)
              : Except Str (MemItem × List Nat)) = .ok (it, demoted) := hok
          have hinj := Except.ok.inj hok2
          have h_it : { approvedItem st cand with
              activation_state := str "stale"
              supersedes_id := some sup } = it := congrArg Prod.fst hinj
          have h_dem : ds = demoted := congrArg Prod.snd hinj
          subst h_it
          subst h_dem
          refine ⟨⟨cand, rfl, hev⟩, rfl, ?_, ?_⟩
          · rw [hA, hAF, hg2]
            exact hg2
          · right
            exact ⟨hin, rfl⟩

/-- Concrete candidate with evidence for the C1 witness. -/
def candC1w : MemCand :=
  ⟨5, str "preference", str "global", str "metric", str "always use metric units",
    80, [str "c_abc_0"], str "proposed"⟩

/-- Concrete store for the C1 witness. -/
def stC1w : MemStore := ⟨[candC1w], [], [], 1⟩

/-- The item the C1 witness approval creates. -/
def itemC1w : MemItem :=
  ⟨1, str "preference", str "global", str "always use metric units", 80,
    str "candidate_approval", none, [], str "active"⟩

/-- Witness for `c1_approval` at a concrete conflict-free store. -/
theorem c1_witness :
    (∀ x ∈ stC1w.items, x.id < stC1w.nextItemId) ∧
    (approve_candidate stC1w 5).2 = .ok (itemC1w, []) ∧
    ((∃ cand, getMemoryCandidate stC1w 5 = some cand ∧
        cand.evidence_citation_ids ≠ []) ∧
      itemC1w.id = stC1w.nextItemId ∧
      getMemoryItem (approve_candidate stC1w 5).1 itemC1w.id = some itemC1w ∧
      ((itemC1w.id ∉ ([] : List Nat) ∧ itemC1w.activation_state = str "active") ∨
       (itemC1w.id ∈ ([] : List Nat) ∧ itemC1w.activation_state = str "stale"))) :=
  ⟨by decide, by decide, c1_approval stC1w 5 itemC1w [] (by decide) (by decide)⟩

/-- Candidate for the C1 counterexample (confidence 60, with evidence). -/
def candCx : MemCand :=
  ⟨3, str "preference", str "global", str "charts", str "use pie charts", 60,
    [str "c_r_1"], str "proposed"⟩

/-- Existing stronger conflicting active item (confidence 90). -/
def itemCx : MemItem :=
  ⟨1, str "preference", str "global", str "never use pie charts", 90,
    str "manual", none, [], str "active"⟩

/-- Store for the C1 counterexample. -/
def stCx : MemStore := ⟨[candCx], [itemCx], [], 2⟩

/-- The item as created by the approval, before the conflict scan. -/
def newCx : MemItem :=
  ⟨2, str "preference", str "global", str "use pie charts", 60,
    str "candidate_approval", none, [], str "active"⟩

/-- The same item after the conflict scan demotes it. -/
def newCxStale : MemItem :=
  ⟨2, str "preference", str "global", str "use pie charts", 60,
    str "candidate_approval", some 1, [], str "stale"⟩

/-- The final store of the C1 counterexample. -/
def stCxFinal : MemStore :=
  ⟨[⟨3, str "preference", str "global", str "charts", str "use pie charts", 60,
      [str "c_r_1"], str "approved"⟩],
   [itemCx, newCxStale],
   [⟨str "approved", str "candidate approved by user", some 2, some 3⟩,
    ⟨str "auto_stale", str "conflicts with stronger memory " ++ natDigits 1,
      some 2, none⟩],
   3⟩

/-- C1 counterexample: an approval that succeeds (non-empty evidence, result
is `.ok`) but whose conflict scan leaves the newly created item stale, not
active — a stronger conflicting active item demotes it before the function
returns. -/
theorem c1_counterexample :
    candCx.evidence_citation_ids ≠ [] ∧
    approve_candidate stCx 3 = (stCxFinal, .ok (newCxStale, [2])) ∧
    newCxStale.id = stCx.nextItemId ∧
    newCxStale.activation_state = str "stale" := by
  have hiconf : is_conflicting (str "use pie charts")
      (str "never use pie charts") = true := by
    unfold is_conflicting
    rw [if_neg (show ¬ (tokenize (str "use pie charts") = [] ∨
        tokenize (str "never use pie charts") = []) by decide)]
    have hov : ¬ (conflictOverlap (str "use pie charts")
        (str "never use pie charts") < 1/2) := by
      unfold conflictOverlap
      rw [show ((tokenize (str "use pie charts")).filter
          (fun w => decide (w ∈ tokenize (str "never use pie charts")))).length = 3
        from by decide]
      rw [show (max 1 (min (tokenize (str "use pie charts")).length
          (tokenize (str "never use pie charts")).length) : ℕ) = 3 from by decide]
      norm_num
    rw [if_neg hov]
    decide
  have hd : demote_conflicts (approvedStore stCx candCx 3) 2 = (stCxFinal, [2]) := by
    unfold demote_conflicts
    rw [show getMemoryItem (approvedStore stCx candCx 3) 2 = some newCx from by decide]
    show demoteGo newCx (approvedStore stCx candCx 3)
      ((listActiveDesc (approvedStore stCx candCx 3)).filter
        (fun it => decide (it.id ≠ 2))) = (stCxFinal, [2])
    rw [show (listActiveDesc (approvedStore stCx candCx 3)).filter
        (fun it => decide (it.id ≠ 2)) = [itemCx] from by decide]
    simp only [demoteGo]
    rw [if_neg (show ¬ (itemCx.kind ≠ newCx.kind) by decide)]
    rw [if_neg (show ¬ (itemCx.scope ≠ newCx.scope) by decide)]
    rw [if_neg (show ¬ ¬ is_conflicting newCx.statement itemCx.statement = true from
      not_not_intro (show is_conflicting newCx.statement itemCx.statement = true
        from hiconf))]
    rw [if_neg (show ¬ (itemCx.confidence ≤ newCx.confidence) by decide)]
    decide
  refine ⟨by decide, ?_, by decide, by decide⟩
  show approveFinish (approvedStore stCx candCx 3) 2 = (stCxFinal, .ok (newCxStale, [2]))
  unfold approveFinish
  rw [hd]
  decide

/-- C9: a candidate with empty evidence citations makes `approve_candidate`
fail with the store-level error before any mutation: the returned store is
the input store unchanged, so the candidate keeps its status and no memory
item or event is created. -/
theorem c9_empty_evidence (st : MemStore) (cid : Nat) (cand : MemCand)
    (hGet : getMemoryCandidate st cid = some cand)
    (hEv : cand.evidence_citation_ids = []) :
    approve_candidate st cid
      = (st, .error (str "Memory candidate requires evidence citations before activation")) := by
  unfold approve_candidate
  split
  next heq =>
    rw [hGet] at heq
    exact absurd heq (by simp)
  next cand2 heq =>
    rw [hGet] at heq
    obtain rfl : cand = cand2 := Option.some.inj heq
    rw [if_pos hEv]

/-- Concrete candidate with empty evidence for the C9 witness. -/
def candC9 : MemCand :=
  ⟨7, str "preference", str "global", str "metric", str "always use metric units",
    80, [], str "proposed"⟩

/-- Concrete store for the C9 witness. -/
def stC9 : MemStore := ⟨[candC9], [], [], 1⟩

/-- Witness for `c9_empty_evidence` at a concrete store. -/
theorem c9_witness :
    getMemoryCandidate stC9 7 = some candC9 ∧
    candC9.evidence_citation_ids = [] ∧
    approve_candidate stC9 7
      = (stC9, .error (str "Memory candidate requires evidence citations before activation")) :=
  ⟨by decide, by decide, c9_empty_evidence stC9 7 candC9 (by decide) (by decide)⟩

/-! ### Native SQL attempt logging (`src/dash/native/orchestrator.py`) -/

/-- One logged SQL attempt: `(attempt_number, sql, error)`. -/
abbrev SqlAttempt := Nat × Str × Option Str

/-- The candidate loop of `run_ask`: each iteration logs one attempt; a
success breaks; a failure on the last candidate raises (`some` error). -/
def attemptLoop (execRes : Str → Except Str Unit) :
    Nat → List Str → List SqlAttempt × Option Str
  | _, [] => ([], none)
  | n0, c :: rest =>
    match execRes c with
    | .ok _ => ([(n0, c, none)], none)
    | .error e =>
      if rest = [] then ([(n0, c, some e)], some e)
      else
        match attemptLoop execRes (n0 + 1) rest with
        | (log, out) => ((n0, c, some e) :: log, out)

/-- The attempts logged by `run_ask`: guardrail failures (on the draft or
the fallback normalization) log a single attempt numbered 1 with the raw
draft SQL; otherwise the loop runs over the candidate list (primary plus
the fallback when allowed and distinct) truncated to `max_sql_attempts`.
`FALLBACK_SQL` is the literal from `sql_drafter.py`. -/
def nativeAttempts (execRes : Str → Except Str Unit) (draft_sql : Str)
    (c : SqlGuardrailConfig) (maxA : Nat) : List SqlAttempt :=
  match validate_and_normalize_sql draft_sql c with
  | .error e => [(1, draft_sql, some e)]
  | .ok primary =>
    if 1 < maxA then
      match validate_and_normalize_sql (str "SELECT 1 AS fallback_result\n") c with
      | .error e => [(1, draft_sql, some e)]
      | .ok fb =>
        if wsStrip (lowerStr fb) ≠ wsStrip (lowerStr primary) then
          (attemptLoop execRes 1 ([primary, fb].take maxA)).1
        else (attemptLoop execRes 1 ([primary].take maxA)).1
    else
      (attemptLoop execRes 1 ([primary].take maxA)).1

theorem attemptLoop_spec (execRes : Str → Except Str Unit) :
    ∀ (cs : List Str) (n0 : Nat),
      (attemptLoop execRes n0 cs).1.map (fun a => a.1)
        = List.range' n0 (attemptLoop execRes n0 cs).1.length ∧
      (attemptLoop execRes n0 cs).1.length ≤ cs.length := by
  intro cs
  induction cs with
  | nil =>
    intro n0
    exact ⟨rfl, le_refl 0⟩
  | cons c rest ih =>
    intro n0
    cases hexec : execRes c with
    | ok _ =>
      have hstep : attemptLoop execRes n0 (c :: rest) = ([(n0, c, none)], none) := by
        simp only [attemptLoop, hexec]
      rw [hstep]
      exact ⟨rfl, by simp⟩
    | error e =>
      by_cases hrest : rest = []
      · have hstep : attemptLoop execRes n0 (c :: rest)
            = ([(n0, c, some e)], some e) := by
          simp only [attemptLoop, hexec]
          rw [if_pos hrest]
        rw [hstep]
        exact ⟨rfl, by simp⟩
      · have hstep : attemptLoop execRes n0 (c :: rest)
            = ((n0, c, some e) :: (attemptLoop execRes (n0 + 1) rest).1,
               (attemptLoop execRes (n0 + 1) rest).2) := by
          simp only [attemptLoop, hexec]
          rw [if_neg hrest]
        rw [hstep]
        obtain ⟨ihm, ihl⟩ := ih (n0 + 1)
        constructor
        · rw [List.map_cons, ihm, List.length_cons]
          rw [List.range'_succ n0 _ 1]
        · rw [List.length_cons, List.length_cons]
          omega

/-- `nativeAttempts` is either a single guardrail attempt or the loop over
some candidate list truncated to the attempt bound. -/
theorem nativeAttempts_cases (execRes : Str → Except Str Unit) (draft_sql : Str)
    (c : SqlGuardrailConfig) (maxA : Nat) :
    (∃ e, nativeAttempts execRes draft_sql c maxA = [(1, draft_sql, some e)]) ∨
    (∃ cs : List Str, nativeAttempts execRes draft_sql c maxA
        = (attemptLoop execRes 1 (cs.take maxA)).1) := by
  unfold nativeAttempts
  split
  next e heq => exact Or.inl ⟨e, rfl⟩
  next primary heq =>
    split
    · split
      next e2 heq2 => exact Or.inl ⟨e2, rfl⟩
      next fb heq2 =>
        split
        · exact Or.inr ⟨[primary, fb], rfl⟩
        · exact Or.inr ⟨[primary], rfl⟩
    · exact Or.inr ⟨[primary], rfl⟩

/-- C8: the logged attempt numbers are exactly `1..N` (contiguous, strictly
increasing), `N` never exceeds `max_sql_attempts`, and a guardrail failure
logs the single attempt number 1 carrying the raw draft SQL. -/
theorem c8_attempt_numbers (execRes : Str → Except Str Unit) (draft_sql : Str)
    (c : SqlGuardrailConfig) (maxA : Nat) (h : 1 ≤ maxA) :
    (nativeAttempts execRes draft_sql c maxA).map (fun a => a.1)
      = List.range' 1 (nativeAttempts execRes draft_sql c maxA).length ∧
    (nativeAttempts execRes draft_sql c maxA).length ≤ maxA ∧
    (∀ e, validate_and_normalize_sql draft_sql c = .error e →
      nativeAttempts execRes draft_sql c maxA = [(1, draft_sql, some e)]) := by
  refine ⟨?_, ?_, ?_⟩
  · rcases nativeAttempts_cases execRes draft_sql c maxA with ⟨e, heq⟩ | ⟨cs, heq⟩
    · rw [heq]
      rfl
    · rw [heq]
      exact (attemptLoop_spec execRes _ 1).1
  · rcases nativeAttempts_cases execRes draft_sql c maxA with ⟨e, heq⟩ | ⟨cs, heq⟩
    · rw [heq]
      simpa using h
    · rw [heq]
      refine le_trans (attemptLoop_spec execRes _ 1).2 ?_
      rw [List.length_take]
      exact min_le_left _ _
  · intro e hval
    unfold nativeAttempts
    rw [hval]

/-- Witness for `c8_attempt_numbers` with an always-succeeding executor. -/
theorem c8_witness :
    (1 : Nat) ≤ 3 ∧
    ((nativeAttempts (fun _ => .ok ()) (str "SELECT 1 AS x") defaultSqlConfig 3).map
        (fun a => a.1)
      = List.range' 1
          (nativeAttempts (fun _ => .ok ()) (str "SELECT 1 AS x") defaultSqlConfig 3).length ∧
    (nativeAttempts (fun _ => .ok ()) (str "SELECT 1 AS x") defaultSqlConfig 3).length ≤ 3 ∧
    (∀ e, validate_and_normalize_sql (str "SELECT 1 AS x") defaultSqlConfig = .error e →
      nativeAttempts (fun _ => .ok ()) (str "SELECT 1 AS x") defaultSqlConfig 3
        = [(1, str "SELECT 1 AS x", some e)])) :=
  ⟨by decide,
   c8_attempt_numbers (fun _ => .ok ()) (str "SELECT 1 AS x") defaultSqlConfig 3 (by decide)⟩

/-! ### Evidence path outcome (`src/dash/personal/orchestrator.py`,
`learning.py`, `store.py`) -/

/-- `classify_outcome` from `learning.py`. -/
def classify_outcome (has_error has_evidence citations_valid : Bool) : Str :=
  if has_error then str "failure"
  else if !has_evidence then str "partial"
  else if has_evidence && !citations_valid then str "hallucination-risk"
  else str "success"

/-- `f"c_{run_id[:12]}_{index}"` from `save_citations`. -/
def citationId (run_id : Str) (index : Nat) : Str :=
  str "c_" ++ run_id.take 12 ++ '_' :: natDigits index

/-- The citation ids produced by the `save_citations` loop
(`enumerate(items, start=1)`). -/
def saveCitationsGo (run_id : Str) : Nat → List RetrievedChunk → List Str
  | _, [] => []
  | idx, _ :: rest => citationId run_id idx :: saveCitationsGo run_id (idx + 1) rest

/-- The persisted citation ids of an evidence-path run: the retrieved
chunks truncated to `retrieved[: min(8, len(retrieved))]`. -/
def evidencePathIds (run_id : Str) (retrieved : List RetrievedChunk) : List Str :=
  saveCitationsGo run_id 1 (retrieved.take (min 8 retrieved.length))

/-- The outcome written at finalization (lines 146-150 of the
orchestrator): `classify_outcome(False, len(citations) > 0,
len(citations) > 0)`. -/
def evidenceOutcome (run_id : Str) (retrieved : List RetrievedChunk) : Str :=
  classify_outcome false
    (decide (0 < (evidencePathIds run_id retrieved).length))
    (decide (0 < (evidencePathIds run_id retrieved).length))

theorem citationId_injective (run_id : Str) :
    Function.Injective (citationId run_id) := by
  intro i j hij
  unfold citationId at hij
  have h1 := List.append_cancel_left hij
  have h3 : natDigits i = natDigits j := by
    injection h1
  exact natDigits_injective h3

theorem saveCitationsGo_eq_map (run_id : Str) :
    ∀ (items : List RetrievedChunk) (n0 : Nat),
      saveCitationsGo run_id n0 items
        = (List.range' n0 items.length).map (citationId run_id) := by
  intro items
  induction items with
  | nil => intro n0; rfl
  | cons a rest ih =>
    intro n0
    rw [show saveCitationsGo run_id n0 (a :: rest)
        = citationId run_id n0 :: saveCitationsGo run_id (n0 + 1) rest from rfl]
    rw [ih (n0 + 1), List.length_cons, List.range'_succ n0 _ 1, List.map_cons]

/-- C2: the persisted citation ids of an evidence-path run are pairwise
distinct, at least one is persisted, and the outcome written at
finalization equals `classify_outcome(false, citations > 0,
citations distinct)` — concretely `success`.  The hallucination-risk case
of the claim is vacuous because the generated ids are always distinct. -/
theorem c2_outcome (run_id : Str) (retrieved : List RetrievedChunk)
    (h : retrieved ≠ []) :
    (evidencePathIds run_id retrieved).Nodup ∧
    0 < (evidencePathIds run_id retrieved).length ∧
    evidenceOutcome run_id retrieved
      = classify_outcome false
          (decide (0 < (evidencePathIds run_id retrieved).length))
          (decide ((evidencePathIds run_id retrieved).Nodup)) ∧
    evidenceOutcome run_id retrieved = str "success" := by
  have hmap : evidencePathIds run_id retrieved
      = (List.range' 1 (retrieved.take (min 8 retrieved.length)).length).map
          (citationId run_id) := saveCitationsGo_eq_map run_id _ 1
  have hnodup : (evidencePathIds run_id retrieved).Nodup := by
    rw [hmap]
    exact (List.nodup_range' 1 _ 1 (by norm_num)).map (citationId_injective run_id)
  have hlen : 0 < (evidencePathIds run_id retrieved).length := by
    rw [hmap]
    rw [List.length_map]
    have hret : 0 < retrieved.length := List.length_pos.mpr h
    simp only [List.length_take]
    have h8 : 0 < min 8 retrieved.length := lt_min (by norm_num) hret
    rw [show (List.range' 1 (min (min 8 retrieved.length) retrieved.length)).length
        = min (min 8 retrieved.length) retrieved.length by simp]
    exact lt_min h8 hret
  refine ⟨hnodup, hlen, ?_, ?_⟩
  · unfold evidenceOutcome
    rw [show decide ((evidencePathIds run_id retrieved).Nodup) = true
        from decide_eq_true hnodup]
    rw [show decide (0 < (evidencePathIds run_id retrieved).length) = true
        from decide_eq_true hlen]
  · unfold evidenceOutcome
    rw [show decide (0 < (evidencePathIds run_id retrieved).length) = true
        from decide_eq_true hlen]
    decide

/-- Witness for `c2_outcome` at a single retrieved chunk. -/
theorem c2_witness :
    ([⟨str "ch1", str "files", str "hello", 0⟩] : List RetrievedChunk) ≠ [] ∧
    ((evidencePathIds (str "r1") [⟨str "ch1", str "files", str "hello", 0⟩]).Nodup ∧
      0 < (evidencePathIds (str "r1") [⟨str "ch1", str "files", str "hello", 0⟩]).length ∧
      evidenceOutcome (str "r1") [⟨str "ch1", str "files", str "hello", 0⟩]
        = classify_outcome false
            (decide (0 < (evidencePathIds (str "r1")
              [⟨str "ch1", str "files", str "hello", 0⟩]).length))
            (decide ((evidencePathIds (str "r1")
              [⟨str "ch1", str "files", str "hello", 0⟩]).Nodup)) ∧
      evidenceOutcome (str "r1") [⟨str "ch1", str "files", str "hello", 0⟩]
        = str "success") :=
  ⟨by simp, c2_outcome (str "r1") [⟨str "ch1", str "files", str "hello", 0⟩] (by simp)⟩

end DataAgent
